import Mathlib

/-! # git-reports: the heat-map report

A shallow embedding of `src/src/HeatMapReport.go` (package `report`) and the
properties of its calendar construction, its layout planning and its grid
rendering, together with the log walk and the key reads of the older pipeline
in `src/main.go`.

Conventions of the embedding.

* Go `int` and `time.Month` values are `Int`.  A terminal width, a month index
  and a day index are far from the range where 64-bit arithmetic wraps; a
  commit count is incremented with the 64-bit wrap of Go (`wrapInt`), since
  `CommitsMap` is an exported field and may hold any count.
* Go maps are association lists with at most one entry for a key that was
  written through `GoMap.set`; only `get`, `set`, `keys` and the length are
  used, so the iteration order of a Go map never matters.
* A `time.Time` is the civil date it denotes at midnight UTC: the program only
  builds times with `time.Parse("2006-1-2", _)`, `time.Date(y, m, 1, 0, 0, 0, 0, UTC)`
  and `AddDate`, and reads them with `Year`, `Month`, `Day`, `Weekday`,
  `Before` and `Format`.
* A loop that has no bound of its own takes a fuel argument and yields `none`
  when the fuel runs out before the loop exits.
* Printing is modelled by the list of print calls made, in order.
* A key of `CommitsMap` is kept as the three numbers of its `%d-%d-%d` text;
  `Key.text` is the text, and it determines the three numbers.
-/

namespace Report

/-! ## Go maps -/

/-- A Go `map[κ]υ`. -/
abbrev GoMap (κ υ : Type) := List (κ × υ)

/-- The two-valued map read `v, ok := m[k]`: `some v` when `ok`. -/
def GoMap.get {κ υ : Type} [DecidableEq κ] : GoMap κ υ → κ → Option υ
  | [], _ => none
  | (k', v) :: rest, k => if k' = k then some v else GoMap.get rest k

/-- The map write `m[k] = v`. -/
def GoMap.set {κ υ : Type} [DecidableEq κ] : GoMap κ υ → κ → υ → GoMap κ υ
  | [], k, v => [(k, v)]
  | (k', v') :: rest, k, v =>
    if k' = k then (k, v) :: rest else (k', v') :: GoMap.set rest k v

/-- The keys visited by `for k := range m`. -/
def GoMap.keys {κ υ : Type} (m : GoMap κ υ) : List κ := m.map Prod.fst

/-! ## `time.Time` -/

/-- A `time.Time`, kept as the civil date it denotes (midnight, UTC). -/
structure Time where
  year : Int
  month : Int
  day : Int
deriving DecidableEq

/-- The zero `time.Time{}`: January 1, year 1, 00:00 UTC. -/
def Time.zero : Time := ⟨1, 1, 1⟩

/-- Go `isLeap`. -/
def isLeap (year : Int) : Bool :=
  year % 4 = 0 ∧ (year % 100 ≠ 0 ∨ year % 400 = 0)

/-- Go `daysIn(m, year)`: the number of days of month `m`. -/
def daysIn (m year : Int) : Int :=
  if m = 2 then (if isLeap year then 29 else 28)
  else if m = 4 ∨ m = 6 ∨ m = 9 ∨ m = 11 then 30
  else 31

/-- The method `t.Before(u)`. -/
def Time.Before (t u : Time) : Prop :=
  t.year < u.year ∨
    (t.year = u.year ∧ (t.month < u.month ∨ (t.month = u.month ∧ t.day < u.day)))

instance (t u : Time) : Decidable (t.Before u) := by
  unfold Time.Before; infer_instance

/-- The call `time.Date(t.Year(), t.Month(), 1, 0, 0, 0, 0, t.Location())`. -/
def Time.monthStart (t : Time) : Time := ⟨t.year, t.month, 1⟩

/-- The call `time.Date(t.Year(), t.Month(), 1, ...).AddDate(0, 1, -1)`: day 0 of
the following month, which Go normalises to the last day of the month of `t`. -/
def Time.monthEnd (t : Time) : Time := ⟨t.year, t.month, daysIn t.month t.year⟩

/-- The call `t.AddDate(0, 0, 1)`: the following calendar day. -/
def Time.nextDay (t : Time) : Time :=
  if t.day < daysIn t.month t.year then ⟨t.year, t.month, t.day + 1⟩
  else if t.month < 12 then ⟨t.year, t.month + 1, 1⟩
  else ⟨t.year + 1, 1, 1⟩

/-- Days of the year before the first of month `m`. -/
def daysBeforeMonth (m year : Int) : Int :=
  ((List.range (m - 1).toNat).map (fun k : Nat => daysIn ((k : Int) + 1) year)).sum

/-- Days from January 1 of year 1 to `t` in the proleptic Gregorian calendar. -/
def Time.daysSinceEpoch (t : Time) : Int :=
  let y := t.year - 1
  365 * y + y / 4 - y / 100 + y / 400 + daysBeforeMonth t.month t.year + (t.day - 1)

/-- The method `t.Weekday()`, Sunday = 0; January 1 of year 1 is a Monday. -/
def Time.Weekday (t : Time) : Int := (t.daysSinceEpoch + 1) % 7

/-! ## The data model of the report -/

structure Tday where
  CommitCount : Int
  Date : Time
deriving DecidableEq

/-- The zero value `Tday{}`, which a read of a missing map key returns. -/
def Tday.zero : Tday := ⟨0, Time.zero⟩

structure Tmonth where
  Month : Int
  Tdays : GoMap Int Tday
deriving DecidableEq

/-- The zero value `Tmonth{}`. -/
def Tmonth.zero : Tmonth := ⟨0, []⟩

structure Tyear where
  Tmonths : GoMap Int Tmonth
  Year : Int
deriving DecidableEq

/-- The zero value `Tyear{}`. -/
def Tyear.zero : Tyear := ⟨[], 0⟩

/-! ## Colour buckets -/

def getColor (commitCount : Int) : String :=
  if commitCount = 0 then "178;215;155"
  else if commitCount ≤ 5 then "139;195;74"
  else if commitCount ≤ 10 then "34;139;34"
  else if commitCount ≤ 15 then "0;100;0"
  else if commitCount ≤ 20 then "0;128;128"
  else "0;64;0"

/-! ## Layout planning in `Tyear.p` -/

/-- The offset search of `Tyear.p`,
`for { if (width+1-offset)%(monthW+1) == 0 { break }; offset++ }`,
with Go's truncated remainder.  The result is the offset at the `break`. -/
def searchOffset (width monthW : Int) : Nat → Int → Option Int
  | 0, _ => none
  | fuel + 1, offset =>
    if Int.tmod (width + 1 - offset) (monthW + 1) = 0 then some offset
    else searchOffset width monthW fuel (offset + 1)

/-- The value of `monthPerLine` in `Tyear.p` for the terminal width `width`:
`(width + 1 - offset) / (monthW + 1)` with Go's truncated quotient, after the
offset search started at `offset := 1 + 5` with `monthW := 6`. -/
def monthPerLine (fuel : Nat) (width : Int) : Option Int :=
  let monthW : Int := 6
  (searchOffset width monthW fuel (1 + 5)).map
    (fun offset => Int.tdiv (width + 1 - offset) (monthW + 1))

/-! ## Rendering one year: `Tyear.p` -/

/-- The method `getFirstMonth`: the least `i` in `1..12` that is a key of
`Tmonths`; `none` stands for the error return. -/
def Tyear.getFirstMonth (y : Tyear) : Option Int :=
  ([1, 2, 3, 4, 5, 6, 7, 8, 9, 10, 11, 12] : List Int).find?
    (fun i => (y.Tmonths.get i).isSome)

def shortDayNames : List String :=
  ["Sun", "Mon", "Tue", "Wed", "Thu", "Fri", "Sat"]

def commitCountRange : List String :=
  ["  .0.  ", " *1-5* ", "*06-10*", "*11-15*", "*16-20*", " *20<* "]

/-- Go `Month.String()` followed by the slice `[0:3]`; a month outside `1..12`
prints as `%!Month(n)`, whose first three characters are `%!M`. -/
def monthAbbrev (m : Int) : String :=
  if 1 ≤ m ∧ m ≤ 12 then
    ((["January", "February", "March", "April", "May", "June", "July", "August",
      "September", "October", "November", "December"].getD (m - 1).toNat "").take 3)
  else "%!M"

/-- The value of `dayIndex` in week column `j` of weekday row `i`. -/
def dayIndex (firstWeekDay i j : Int) : Int := 7 * j - firstWeekDay - 6 + i

/-- The values of `j` in `for j := 1; j < 7; j++`. -/
def weekColumns : List Int := [1, 2, 3, 4, 5, 6]

/-- The values of `i` in `for i := 0; i < 7; i++`. -/
def weekdayRows : List Int := [0, 1, 2, 3, 4, 5, 6]

/-- The six day cells of one month in weekday row `i`: the read
`value.Tdays[dayIndex]` for every `j`, `none` where a blank is printed. -/
def weekCells (tdays : GoMap Int Tday) (firstWeekDay i : Int) : List (Option Tday) :=
  weekColumns.map (fun j => tdays.get (dayIndex firstWeekDay i j))

/-- The value of `firstWeekDay := value.Tdays[1].Date.Weekday()`; a missing key
reads as the zero `Tday`. -/
def Tmonth.firstWeekDay (value : Tmonth) : Int :=
  ((value.Tdays.get 1).getD Tday.zero).Date.Weekday

/-- What one weekday row shows for one month: the key of the month and its six
cells. -/
structure MonthColumn where
  monthIndex : Int
  cells : List (Option Tday)
deriving DecidableEq

/-- What one pass of the outer loop of `Tyear.p` prints: the months named in
the header row (key and value), and the month columns of the seven weekday
rows, Sunday first. -/
structure LineGroup where
  header : List (Int × Tmonth)
  rows : List (List MonthColumn)
deriving DecidableEq

/-- The header loop of `Tyear.p`,
`for monthIndex-int(firstMonth)+1 <= lineIndex*monthPerLine && monthIndex < 13`.
Every pass adds one to `monthIndex`, so the loop makes at most `13 - monthIndex`
passes; the first argument counts the passes that remain.  The result is the
months printed and the final `monthIndex`. -/
def headerLoop (y : Tyear) (firstMonth monthPerLine lineIndex : Int) :
    Nat → Int → List (Int × Tmonth) × Int
  | 0, monthIndex => ([], monthIndex)
  | n + 1, monthIndex =>
    if monthIndex - firstMonth + 1 ≤ lineIndex * monthPerLine ∧ monthIndex < 13 then
      match y.Tmonths.get monthIndex with
      | none => headerLoop y firstMonth monthPerLine lineIndex n (monthIndex + 1)
      | some value =>
        let rest := headerLoop y firstMonth monthPerLine lineIndex n (monthIndex + 1)
        ((monthIndex, value) :: rest.1, rest.2)
    else ([], monthIndex)

/-- The month loop inside weekday row `i` of `Tyear.p`, with the same guard as
the header loop.  The result is the month columns printed and the final
`monthIndex`. -/
def rowLoop (y : Tyear) (firstMonth monthPerLine lineIndex i : Int) :
    Nat → Int → List MonthColumn × Int
  | 0, monthIndex => ([], monthIndex)
  | n + 1, monthIndex =>
    if monthIndex - firstMonth + 1 ≤ lineIndex * monthPerLine ∧ monthIndex < 13 then
      match y.Tmonths.get monthIndex with
      | none => rowLoop y firstMonth monthPerLine lineIndex i n (monthIndex + 1)
      | some value =>
        let rest := rowLoop y firstMonth monthPerLine lineIndex i n (monthIndex + 1)
        (⟨monthIndex, weekCells value.Tdays value.firstWeekDay i⟩ :: rest.1, rest.2)
    else ([], monthIndex)

/-- The value `monthIndex = monthPerLine*(lineIndex-1) + 1` at which every
weekday row restarts. -/
def rowStart (monthPerLine lineIndex : Int) : Int := monthPerLine * (lineIndex - 1) + 1

/-- The outer loop `for monthIndex < 13` of `Tyear.p`: one `LineGroup` for each
pass.  After the seven weekday rows `monthIndex` is where the last row left it. -/
def groupLoop (y : Tyear) (firstMonth monthPerLine : Int) :
    Nat → Int → Int → Option (List LineGroup)
  | 0, monthIndex, _ => if monthIndex < 13 then none else some []
  | fuel + 1, monthIndex, lineIndex =>
    if monthIndex < 13 then
      let header :=
        (headerLoop y firstMonth monthPerLine lineIndex (13 - monthIndex).toNat monthIndex).1
      let start := rowStart monthPerLine lineIndex
      let row := fun i : Int =>
        rowLoop y firstMonth monthPerLine lineIndex i (13 - start).toNat start
      let rows := weekdayRows.map (fun i => (row i).1)
      (groupLoop y firstMonth monthPerLine fuel (row 6).2 (lineIndex + 1)).map
        (fun groups => ⟨header, rows⟩ :: groups)
    else some []

/-- The keys of the months named in the header row of a line group. -/
def LineGroup.headerMonths (g : LineGroup) : List Int := g.header.map Prod.fst

/-- The keys of the months shown in each of the weekday rows of a line group. -/
def LineGroup.rowMonths (g : LineGroup) : List (List Int) :=
  g.rows.map (fun row => row.map MonthColumn.monthIndex)

/-- The line groups that `Tyear.p` prints for the terminal width `width`
(the value read from `term.GetSize`).  A year without months prints none:
`getFirstMonth` fails and `p` returns. -/
def Tyear.lineGroups (fuel : Nat) (y : Tyear) (width : Int) : Option (List LineGroup) :=
  match monthPerLine fuel width with
  | none => none
  | some mpl =>
    match y.getFirstMonth with
    | none => some []
    | some firstMonth => groupLoop y firstMonth mpl fuel firstMonth 1

/-! ## Print calls -/

/-- One print call. -/
inductive Out where
  /-- The call `fmt.Println(s)`; `fmt.Println()` has the empty text. -/
  | fmtPrintln (s : String)
  /-- The call `fmt.Print(s)`. -/
  | fmtPrint (s : String)
  /-- The call `newHeader.WithFullWidth().Println(y.Year)`. -/
  | yearHeader (year : Int)
  /-- The call `pterm.DefaultBasicText.Print(pterm.<style>(s))`. -/
  | ptermPrint (style s : String)
  /-- The day cell `fmt.Printf` of `Tyear.p`: background colour and glyph. -/
  | cell (color char : String)
  /-- The legend entry `pterm.DefaultBasicText.Printf` of `commitCountGuide`:
  background colour and label (printed in red). -/
  | guideEntry (color label : String)
deriving DecidableEq

/-- The print call of one day cell: a blank when the day is missing, else the
coloured glyph. -/
def cellOut : Option Tday → Out
  | none => Out.fmtPrint " "
  | some d => Out.cell (getColor d.CommitCount) (if d.CommitCount = 0 then "." else "*")

/-- The print calls of one weekday row. -/
def rowOut (i : Nat) (row : List MonthColumn) : List Out :=
  [Out.ptermPrint "Blue" (shortDayNames.getD i ""), Out.ptermPrint "Yellow" ": "]
    ++ (row.map (fun col => col.cells.map cellOut ++ [Out.ptermPrint "Yellow" "|"])).flatten
    ++ [Out.fmtPrintln ""]

/-- The print calls of one pass of the outer loop of `Tyear.p`. -/
def LineGroup.out (g : LineGroup) : List Out :=
  [Out.fmtPrint "     "]
    ++ (g.header.map (fun h => [Out.fmtPrint "  ",
          Out.ptermPrint "Green" (monthAbbrev h.2.Month), Out.ptermPrint "Yellow" " |"])).flatten
    ++ [Out.fmtPrintln ""]
    ++ (g.rows.enum.map (fun r => rowOut r.1 r.2)).flatten

/-- The method `Tyear.p`, as the print calls it makes. -/
def Tyear.p (fuel : Nat) (y : Tyear) (width : Int) : Option (List Out) :=
  (y.lineGroups fuel width).map
    (fun groups => [Out.fmtPrintln "", Out.yearHeader y.Year] ++ (groups.map LineGroup.out).flatten)

def commitCountGuide : List Out :=
  [Out.fmtPrintln "", Out.ptermPrint "Blue" "commits count guide:"]
    ++ (List.range commitCountRange.length).map
        (fun i : Nat => Out.guideEntry (getColor ((i : Int) * 5)) (commitCountRange.getD i ""))
    ++ [Out.fmtPrintln ""]

/-! ## The report: `HeatMapReport` -/

/-- A key of `CommitsMap`.  `IterationStep` writes the key
`fmt.Sprintf("%d-%d-%d", year, month, date)`; the embedding keeps the three
numbers of that text. -/
structure Key where
  year : Int
  month : Int
  day : Int
deriving DecidableEq

structure HeatMapReport where
  CommitsMap : GoMap Key Int

/-- A key that `time.Parse("2006-1-2", _)` accepts: a year of four digits, a
month in `1..12` and a day of that month. -/
def Key.WellFormed (k : Key) : Prop :=
  1000 ≤ k.year ∧ k.year ≤ 9999 ∧ 1 ≤ k.month ∧ k.month ≤ 12 ∧
    1 ≤ k.day ∧ k.day ≤ daysIn k.month k.year

instance (k : Key) : Decidable k.WellFormed := by
  unfold Key.WellFormed; infer_instance

/-- The call `t, _ := time.Parse("2006-1-2", key)`: on a parse error the error is
dropped and `t` is the zero time. -/
def parseKey (k : Key) : Time :=
  if k.WellFormed then ⟨k.year, k.month, k.day⟩ else Time.zero

/-- The read `r.CommitsMap[startDate.Format("2006-1-2")]`.  `Format` writes the
year with four digits at least, so the text is a `%d-%d-%d` key only for a year
from 1000 on; a missing key reads as 0. -/
def commitCountOn (commits : GoMap Key Int) (t : Time) : Int :=
  if 1000 ≤ t.year then (commits.get ⟨t.year, t.month, t.day⟩).getD 0 else 0

/-- The call `sort.Slice(keys, less)` with `less` the `Before` of the parsed
keys, as insertion sort. -/
def sortKeys (keys : List Key) : List Key :=
  keys.insertionSort (fun a b => ¬ (parseKey b).Before (parseKey a))

/-- One pass of the loop `for startDate.Before(endDate)` of `Print`: the year and
month containers are created when missing, then the day is written. -/
def putDay (commits : GoMap Key Int) (years : GoMap Int Tyear) (startDate : Time) :
    GoMap Int Tyear :=
  let years1 :=
    if (years.get startDate.year).isSome then years
    else years.set startDate.year ⟨[], startDate.year⟩
  let tyear := (years1.get startDate.year).getD Tyear.zero
  let tmonths1 :=
    if (tyear.Tmonths.get startDate.month).isSome then tyear.Tmonths
    else tyear.Tmonths.set startDate.month ⟨startDate.month, []⟩
  let tmonth := (tmonths1.get startDate.month).getD Tmonth.zero
  let tdays1 :=
    if (tmonth.Tdays.get startDate.day).isSome then tmonth.Tdays
    else tmonth.Tdays.set startDate.day Tday.zero
  let tDay : Tday := ⟨commitCountOn commits startDate, startDate⟩
  let tdays2 := tdays1.set startDate.day tDay
  years1.set startDate.year ⟨tmonths1.set startDate.month ⟨tmonth.Month, tdays2⟩, tyear.Year⟩

/-- The loop `for startDate.Before(endDate) { ...; startDate = startDate.AddDate(0, 0, 1) }`. -/
def fillYears (commits : GoMap Key Int) (endDate : Time) :
    Nat → Time → GoMap Int Tyear → Option (GoMap Int Tyear)
  | 0, startDate, years => if startDate.Before endDate then none else some years
  | fuel + 1, startDate, years =>
    if startDate.Before endDate then
      fillYears commits endDate fuel startDate.nextDay (putDay commits years startDate)
    else some years

/-- The calendar `years` that `Print` builds from a non-empty `CommitsMap`;
`none` also stands for the failed reads `keys[0]` and `keys[len(keys)-1]` of an
empty key slice. -/
def HeatMapReport.calendar (fuel : Nat) (r : HeatMapReport) : Option (GoMap Int Tyear) :=
  let keys := sortKeys r.CommitsMap.keys
  match keys.head?, keys.getLast? with
  | some first, some last =>
    let startDate := (parseKey first).monthStart
    let endDate := (parseKey last).monthEnd
    fillYears r.CommitsMap endDate fuel startDate []
  | _, _ => none

/-- The loop `for _, k := range yearsKey { years[k].p() }`. -/
def printYears (fuel : Nat) (years : GoMap Int Tyear) (width : Int) :
    List Int → Option (List Out)
  | [] => some []
  | k :: rest =>
    match ((years.get k).getD Tyear.zero).p fuel width, printYears fuel years width rest with
    | some o, some os => some (o ++ os)
    | _, _ => none

/-- The method `HeatMapReport.Print` as the print calls it makes, for the
terminal width `width` that `term.GetSize` reports to every `Tyear.p`. -/
def HeatMapReport.Print (fuel : Nat) (r : HeatMapReport) (width : Int) : Option (List Out) :=
  if r.CommitsMap.length = 0 then some [Out.fmtPrintln "No commits where found!"]
  else
    match r.calendar fuel with
    | none => none
    | some years =>
      let yearsKey := years.keys.insertionSort (fun a b => a ≤ b)
      (printYears fuel years width yearsKey).map (fun o => o ++ commitCountGuide)

/-! ## Notions used in the statements -/

/-- The month stored for year `y` and month `m`, when both containers exist. -/
def monthAt (years : GoMap Int Tyear) (y m : Int) : Option Tmonth :=
  (years.get y).bind (fun ty => ty.Tmonths.get m)

/-- The day stored for a date, when the three map reads succeed. -/
def dayAt (years : GoMap Int Tyear) (y m d : Int) : Option Tday :=
  (monthAt years y m).bind (fun tm => tm.Tdays.get d)

/-- Every month of the calendar has an entry for day 1, dated the first of that
month and year. -/
def FirstDays (years : GoMap Int Tyear) : Prop :=
  ∀ y m tm, monthAt years y m = some tm →
    ∃ td, tm.Tdays.get 1 = some td ∧ td.Date = ⟨y, m, 1⟩

/-- The month of `cur` is already in the calendar unless `cur` is a first of
month. -/
def MonthOpen (years : GoMap Int Tyear) (cur : Time) : Prop :=
  cur.day ≠ 1 → ∃ tm, monthAt years cur.year cur.month = some tm

/-- A position of the dates in their calendar order. -/
def Time.ord (t : Time) : Int := t.year * 372 + (t.month - 1) * 31 + (t.day - 1)

/-- A civil date: a month in `1..12` and a day of that month. -/
def Time.Valid (t : Time) : Prop :=
  1 ≤ t.month ∧ t.month ≤ 12 ∧ 1 ≤ t.day ∧ t.day ≤ daysIn t.month t.year

instance (t : Time) : Decidable t.Valid := by
  unfold Time.Valid; infer_instance

/-- The calendar that `Print` builds from the single observation 2023-01-15: 3. -/
def januaryCalendar : GoMap Int Tyear :=
  [(2023, ⟨[(1, ⟨1, (List.range' 1 30).map
      (fun d : Nat => ((d : Int), ⟨if d = 15 then 3 else 0, ⟨2023, 1, d⟩⟩))⟩)], 2023⟩)]

/-- The line printed for an empty `CommitsMap`. -/
def noCommitsLine : Out := Out.fmtPrintln "No commits where found!"

/-- The values of `i` in `for i := 1; i < 13; i++`: the month numbers. -/
def monthNumbers : List Int := [1, 2, 3, 4, 5, 6, 7, 8, 9, 10, 11, 12]

/-- A year with the months 6 to 12, each with its first day. -/
def secondHalfYear : Tyear :=
  ⟨([6, 7, 8, 9, 10, 11, 12] : List Int).map (fun m => (m, ⟨m, [(1, ⟨0, ⟨2023, m, 1⟩⟩)]⟩)), 2023⟩

/-! ## Commits, their keys and the log walk -/

/-- What the program reads of a commit: `c.Author.Email` and the date
`c.Author.When.Local().Date()`. -/
structure Commit where
  Email : String
  When : Time

/-- The three numbers that `fmt.Sprintf("%d-%d-%d", year, month, date)` writes
for a commit. -/
def Commit.key (c : Commit) : Key := ⟨c.When.year, c.When.month, c.When.day⟩

/-- The decimal digits of `u`, the last digit first. -/
def digitsRev : Nat → Nat → List Char
  | 0, _ => []
  | fuel + 1, u =>
    if u < 10 then [Nat.digitChar u]
    else Nat.digitChar (u % 10) :: digitsRev fuel (u / 10)

/-- The number whose digits, last digit first, are the characters of a list. -/
def ofDigitsRev : List Char → Nat
  | [] => 0
  | c :: rest => (c.toNat - 48) + 10 * ofDigitsRev rest

/-- The text of `%d` for a number that is not negative. -/
def formatNat (u : Nat) : List Char := (digitsRev (u + 1) u).reverse

/-- The text of `%d`: a minus sign before the digits of a negative number. -/
def formatInt (n : Int) : List Char :=
  if n < 0 then '-' :: formatNat n.natAbs else formatNat n.natAbs

/-- The text of a key: `fmt.Sprintf("%d-%d-%d", year, month, date)`. -/
def Key.text (k : Key) : String :=
  String.mk (formatInt k.year ++ '-' :: (formatInt k.month ++ '-' :: formatInt k.day))

/-- The value of a Go `int` computation whose exact result is `x`: 64-bit two's
complement arithmetic wraps, so `9223372036854775807 + 1` is
`-9223372036854775808`. -/
def wrapInt (x : Int) : Int := (x + 2 ^ 63) % 2 ^ 64 - 2 ^ 63

/-- The method `IterationStep`: the count under the key of the commit's date
becomes 1 when the key is new and is incremented, `r.CommitsMap[key]++`,
otherwise. -/
def HeatMapReport.IterationStep (r : HeatMapReport) (c : Commit) : HeatMapReport :=
  match r.CommitsMap.get c.key with
  | none => ⟨r.CommitsMap.set c.key 1⟩
  | some v => ⟨r.CommitsMap.set c.key (wrapInt (v + 1))⟩

/-- The number of commits of a list whose date has the key `k`. -/
def commitsOn (log : List Commit) (k : Key) : Nat :=
  (log.filter (fun c => decide (c.key = k))).length

/-! ## The older pipeline of `main.go` -/

/-- A slice read `s[i]`; `none` stands for the run-time panic
`index out of range`. -/
def sliceAt {α : Type} (s : List α) (i : Int) : Option α :=
  if 0 ≤ i ∧ i < s.length then s[i.toNat]? else none

/-- The log walk of `main`: `cIter.ForEach` counts, for every commit whose
author email is `mainAuthorEmail`, one under the key of its date. -/
def Main.commits (mainAuthorEmail : String) (log : List Commit) : GoMap Key Int :=
  log.foldl
    (fun commits c =>
      if c.Email = mainAuthorEmail then
        match commits.get c.key with
        | none => commits.set c.key 1
        | some v => commits.set c.key (wrapInt (v + 1))
      else commits)
    []

/-- The reads `keys[0]` and `keys[len(keys)-1]` of `main`, after the keys of
`commits` were collected and sorted: the dates `startDate` and `endDate`, or
`none` when a read panics.  `main` makes these reads without a test of
`len(keys)`. -/
def Main.dateRange (commits : GoMap Key Int) : Option (Time × Time) :=
  let keys := sortKeys commits.keys
  match sliceAt keys 0, sliceAt keys ((keys.length : Int) - 1) with
  | some first, some last => some ((parseKey first).monthStart, (parseKey last).monthEnd)
  | _, _ => none

/-! ## Notions used for the extent of the calendar -/

/-- The index of the month of a date, counted over the years. -/
def Time.ym (t : Time) : Int := t.year * 12 + (t.month - 1)

/-- The calendar holds the months from the month of `start` up to the month
before that of `cur`, and the month of `cur` once a day of it was written; a
year is in it exactly when one of its months is. -/
def FilledTo (start cur : Time) (years : GoMap Int Tyear) : Prop :=
  (∀ y m, (monthAt years y m).isSome = true ↔
    (1 ≤ m ∧ m ≤ 12 ∧ start.ym ≤ y * 12 + (m - 1) ∧
      (y * 12 + (m - 1) < cur.ym ∨ (y * 12 + (m - 1) = cur.ym ∧ cur.day ≠ 1)))) ∧
  ∀ y, (years.get y).isSome = true ↔ ∃ m, (monthAt years y m).isSome = true

/-- The date `d` lies in the range from `startDate` to `endDate`, both ends
included. -/
def Time.Within (d startDate endDate : Time) : Prop :=
  d.Valid ∧ ¬ d.Before startDate ∧ ¬ endDate.Before d

/-! ## Facts about the layout planning -/

theorem tmod_seven_eq_zero_iff (x : Int) : Int.tmod x 7 = 0 ↔ x % 7 = 0 := by
  rw [← Int.dvd_iff_tmod_eq_zero, Int.dvd_iff_emod_eq_zero]

/-- The offset search breaks after `(width + 1 - offset) mod 7` increments. -/
theorem searchOffset_eq (width : Int) :
    ∀ (fuel : Nat) (offset : Int), ((width + 1 - offset) % 7).toNat < fuel →
      searchOffset width 6 fuel offset = some (offset + (width + 1 - offset) % 7) := by
  intro fuel
  induction fuel with
  | zero => intro offset h; omega
  | succ n ih =>
    intro offset h
    unfold searchOffset
    have h6 : ((6 : Int) + 1) = 7 := by norm_num
    rw [h6]
    by_cases hz : Int.tmod (width + 1 - offset) 7 = 0
    · rw [if_pos hz]
      have := (tmod_seven_eq_zero_iff _).1 hz
      rw [this]; simp
    · rw [if_neg hz]
      have hne : (width + 1 - offset) % 7 ≠ 0 := fun hc => hz ((tmod_seven_eq_zero_iff _).2 hc)
      have hstep : (width + 1 - (offset + 1)) % 7 = (width + 1 - offset) % 7 - 1 := by omega
      rw [ih (offset + 1) (by omega), hstep]
      congr 1; omega

/-- With fuel for seven tests of the guard, `monthPerLine` is the floor of
`(width - 5) / 7`. -/
theorem monthPerLine_eq (width : Int) (fuel : Nat) (hf : 7 ≤ fuel) :
    monthPerLine fuel width = some ((width - 5) / 7) := by
  unfold monthPerLine
  have h15 : ((1 : Int) + 5) = 6 := by norm_num
  have h6 : ((6 : Int) + 1) = 7 := by norm_num
  simp only [h15, h6]
  rw [searchOffset_eq width fuel 6 (by omega)]
  simp only [Option.map_some']
  congr 1
  have hd : (7 : Int) ∣ width + 1 - (6 + (width + 1 - 6) % 7) := by
    apply Int.dvd_of_emod_eq_zero; omega
  rw [Int.tdiv_eq_ediv_of_dvd hd]
  omega

/-! ## Colour buckets: claims -/

/-- C7: every count from 0 on falls in one of six ranges, and `getColor` maps count 0 to the L0 colour, 1..5 to L1, 6..10 to L2,
11..15 to L3, 16..20 to L4 and every larger count to L5; the six colours are
pairwise distinct, and the counts 0, 1, 5, 6, 10, 11, 15, 16, 20, 21, 1000 get
the colours L0, L1, L1, L2, L2, L3, L3, L4, L4, L5, L5. -/
theorem getColor_buckets (n : Int) (h : 0 ≤ n) :
    (n = 0 ∨ (1 ≤ n ∧ n ≤ 5) ∨ (6 ≤ n ∧ n ≤ 10) ∨ (11 ≤ n ∧ n ≤ 15) ∨
      (16 ≤ n ∧ n ≤ 20) ∨ 20 < n) ∧
    (n = 0 → getColor n = "178;215;155") ∧
    (1 ≤ n ∧ n ≤ 5 → getColor n = "139;195;74") ∧
    (6 ≤ n ∧ n ≤ 10 → getColor n = "34;139;34") ∧
    (11 ≤ n ∧ n ≤ 15 → getColor n = "0;100;0") ∧
    (16 ≤ n ∧ n ≤ 20 → getColor n = "0;128;128") ∧
    (20 < n → getColor n = "0;64;0") ∧
    ["178;215;155", "139;195;74", "34;139;34", "0;100;0", "0;128;128", "0;64;0"].Nodup ∧
    [0, 1, 5, 6, 10, 11, 15, 16, 20, 21, 1000].map getColor =
      ["178;215;155", "139;195;74", "139;195;74", "34;139;34", "34;139;34", "0;100;0",
        "0;100;0", "0;128;128", "0;128;128", "0;64;0", "0;64;0"] := by
  refine ⟨by omega, ?_, ?_, ?_, ?_, ?_, ?_, by decide, by decide⟩
  · intro h0; simp [getColor, h0]
  · intro h1
    have : n ≠ 0 := by omega
    simp [getColor, this, h1.2]
  · intro h1
    have a : n ≠ 0 := by omega
    have b : ¬ n ≤ 5 := by omega
    simp [getColor, a, b, h1.2]
  · intro h1
    have a : n ≠ 0 := by omega
    have b : ¬ n ≤ 5 := by omega
    have c : ¬ n ≤ 10 := by omega
    simp [getColor, a, b, c, h1.2]
  · intro h1
    have a : n ≠ 0 := by omega
    have b : ¬ n ≤ 5 := by omega
    have c : ¬ n ≤ 10 := by omega
    have d : ¬ n ≤ 15 := by omega
    simp [getColor, a, b, c, d, h1.2]
  · intro h1
    have a : n ≠ 0 := by omega
    have b : ¬ n ≤ 5 := by omega
    have c : ¬ n ≤ 10 := by omega
    have d : ¬ n ≤ 15 := by omega
    have e : ¬ n ≤ 20 := by omega
    simp [getColor, a, b, c, d, e]

theorem getColor_buckets_witness :
    (0 : Int) ≤ 7 ∧ getColor 7 = "34;139;34" :=
  ⟨by decide, (getColor_buckets 7 (by decide)).2.2.2.1 ⟨by decide, by decide⟩⟩

/-! ## Layout planning: claims -/

/-- C4, as stated, fails: for the terminal width 11 the offset search ends at
offset 12 and `monthPerLine` is 0, which is below 1. -/
theorem monthPerLine_width_eleven : monthPerLine 7 11 = some 0 ∧ ¬ (1 : Int) ≤ 0 := by
  decide

/-- C4, amended: the `monthPerLine` that the offset search of `Tyear.p` computes
is at least 1 exactly for the terminal widths of at least 12 columns; for a
narrower terminal (width 0 included) it is 0 or negative. -/
theorem monthPerLine_pos_iff (width : Int) (fuel : Nat) (hf : 7 ≤ fuel) :
    ∃ m, monthPerLine fuel width = some m ∧ (1 ≤ m ↔ 12 ≤ width) := by
  refine ⟨(width - 5) / 7, monthPerLine_eq width fuel hf, ?_⟩
  omega

theorem monthPerLine_pos_iff_witness :
    7 ≤ 7 ∧ ∃ m, monthPerLine 7 80 = some m ∧ (1 ≤ m ↔ (12 : Int) ≤ 80) :=
  ⟨by decide, monthPerLine_pos_iff 80 7 (by decide)⟩

/-- C9, as stated, fails: the width 0 read when `term.GetSize` fails gives
`monthPerLine` -1, the width 80 gives 10. -/
theorem monthPerLine_zero_ne_eighty :
    monthPerLine 7 0 = some (-1) ∧ monthPerLine 7 80 = some 10 ∧
      monthPerLine 7 0 ≠ monthPerLine 7 80 := by
  decide

/-- C9, amended: `Tyear.p` has no fallback width.  The width 0 read when
`term.GetSize` fails is used as it is and gives `monthPerLine` -1, not the 10
months per line of an 80-column terminal. -/
theorem monthPerLine_no_fallback (fuel : Nat) (hf : 7 ≤ fuel) :
    monthPerLine fuel 0 = some (-1) ∧ monthPerLine fuel 80 = some 10 := by
  rw [monthPerLine_eq 0 fuel hf, monthPerLine_eq 80 fuel hf]
  constructor <;> rfl

theorem monthPerLine_no_fallback_witness :
    7 ≤ 9 ∧ monthPerLine 9 0 = some (-1) ∧ monthPerLine 9 80 = some 10 :=
  ⟨by decide, monthPerLine_no_fallback 9 (by decide)⟩

/-- C10: for every terminal width the planned line width, the 5-character
weekday margin plus `monthPerLine` month columns of 7 characters, does not
exceed the terminal width. -/
theorem planned_width_le (width : Int) (fuel : Nat) (hf : 7 ≤ fuel) :
    ∃ m, monthPerLine fuel width = some m ∧ 5 + 7 * m ≤ width := by
  refine ⟨(width - 5) / 7, monthPerLine_eq width fuel hf, ?_⟩
  omega

theorem planned_width_le_witness :
    7 ≤ 7 ∧ ∃ m, monthPerLine 7 30 = some m ∧ 5 + 7 * m ≤ 30 :=
  ⟨by decide, planned_width_le 30 7 (by decide)⟩

/-! ## The month loops of `Tyear.p` run to their guard -/

/-- The pass counter of the header loop never cuts the loop short: with
`13 - monthIndex` passes or more the result is the same. -/
theorem headerLoop_counter (y : Tyear) (firstMonth mpl lineIndex : Int) :
    ∀ (n : Nat) (monthIndex : Int), (13 - monthIndex).toNat ≤ n →
      headerLoop y firstMonth mpl lineIndex (n + 1) monthIndex =
        headerLoop y firstMonth mpl lineIndex n monthIndex := by
  intro n
  induction n with
  | zero =>
    intro monthIndex h
    have h13 : ¬ monthIndex < 13 := by omega
    simp [headerLoop, h13]
  | succ n ih =>
    intro monthIndex h
    rw [headerLoop, headerLoop.eq_def y firstMonth mpl lineIndex (n + 1) monthIndex]
    simp only
    rw [ih (monthIndex + 1) (by omega)]

/-- The pass counter of the month loop of a weekday row never cuts the loop
short. -/
theorem rowLoop_counter (y : Tyear) (firstMonth mpl lineIndex i : Int) :
    ∀ (n : Nat) (monthIndex : Int), (13 - monthIndex).toNat ≤ n →
      rowLoop y firstMonth mpl lineIndex i (n + 1) monthIndex =
        rowLoop y firstMonth mpl lineIndex i n monthIndex := by
  intro n
  induction n with
  | zero =>
    intro monthIndex h
    have h13 : ¬ monthIndex < 13 := by omega
    simp [rowLoop, h13]
  | succ n ih =>
    intro monthIndex h
    rw [rowLoop, rowLoop.eq_def y firstMonth mpl lineIndex i (n + 1) monthIndex]
    simp only
    rw [ih (monthIndex + 1) (by omega)]

/-! ## Weekday alignment -/

theorem GoMap.get_set {κ υ : Type} [DecidableEq κ] (m : GoMap κ υ) (k k2 : κ) (v : υ) :
    (m.set k v).get k2 = if k = k2 then some v else m.get k2 := by
  induction m with
  | nil =>
    simp only [GoMap.set, GoMap.get]
  | cons p rest ih =>
    obtain ⟨k', v'⟩ := p
    simp only [GoMap.set]
    by_cases h : k' = k
    · subst h
      by_cases h2 : k' = k2 <;> simp [GoMap.get, h2]
    · simp only [if_neg h, GoMap.get, ih]
      by_cases h2 : k = k2
      · subst h2
        simp [h]
      · simp [h2]

theorem GoMap.set_set {κ υ : Type} [DecidableEq κ] (m : GoMap κ υ) (k : κ) (v v2 : υ) :
    (m.set k v).set k v2 = m.set k v2 := by
  induction m with
  | nil => simp [GoMap.set]
  | cons p rest ih =>
    obtain ⟨k', v'⟩ := p
    by_cases h : k' = k
    · simp [GoMap.set, h]
    · simp [GoMap.set, h, ih]

/-! ## The calendar loop -/

theorem putDay_monthAt (commits : GoMap Key Int) (years : GoMap Int Tyear) (cur : Time)
    (y m : Int) :
    monthAt (putDay commits years cur) y m =
      if cur.year = y ∧ cur.month = m then
        some ⟨((monthAt years y m).getD ⟨cur.month, []⟩).Month,
          (((monthAt years y m).getD ⟨cur.month, []⟩).Tdays).set cur.day
            ⟨commitCountOn commits cur, cur⟩⟩
      else monthAt years y m := by
  unfold monthAt putDay
  simp only [GoMap.get_set]
  by_cases hy : cur.year = y
  · subst hy
    simp only [if_true, Option.some_bind, true_and]
    cases hget : years.get cur.year with
    | none =>
      simp only [Option.isSome_none, Bool.false_eq_true, if_false, GoMap.get_set, if_true,
        Option.getD_some, GoMap.get, Option.none_bind, Option.getD_none]
      by_cases hm : cur.month = m
      · subst hm
        simp [GoMap.set, GoMap.get, Tday.zero]
      · simp [hm, GoMap.set, GoMap.get]
    | some ty =>
      simp only [Option.isSome_some, if_true, hget, Option.getD_some, Option.some_bind]
      cases hmget : ty.Tmonths.get cur.month with
      | none =>
        simp only [Option.isSome_none, Bool.false_eq_true, if_false, GoMap.get_set, if_true,
          Option.getD_some]
        by_cases hm : cur.month = m
        · subst hm
          simp [GoMap.set, GoMap.get, Tday.zero, hmget]
        · simp [hm]
      | some tm =>
        simp only [Option.isSome_some, if_true, GoMap.get_set, hmget, Option.getD_some]
        by_cases hm : cur.month = m
        · subst hm
          simp only [if_true, hmget, Option.getD_some]
          by_cases hd : (tm.Tdays.get cur.day).isSome
          · simp [hd]
          · simp [hd, GoMap.set_set]
        · simp [hm]
  · by_cases hs : (years.get cur.year).isSome
    · simp [hs, hy]
    · simp [hs, GoMap.get_set, hy]


theorem monthAt_eq_some (years : GoMap Int Tyear) (y m : Int) (tm : Tmonth) :
    monthAt years y m = some tm ↔
      ∃ ty, years.get y = some ty ∧ ty.Tmonths.get m = some tm := by
  unfold monthAt
  cases h : years.get y with
  | none => simp
  | some ty => simp

theorem putDay_firstDays (commits : GoMap Key Int) (years : GoMap Int Tyear) (cur : Time)
    (hA : FirstDays years) (hB : MonthOpen years cur) :
    FirstDays (putDay commits years cur) := by
  intro y m tm hget
  rw [putDay_monthAt] at hget
  by_cases hc : cur.year = y ∧ cur.month = m
  · rw [if_pos hc] at hget
    obtain ⟨hy, hm⟩ := hc
    subst hy; subst hm
    have htm := (Option.some.inj hget).symm
    subst htm
    simp only [GoMap.get_set]
    by_cases hd : cur.day = 1
    · refine ⟨⟨commitCountOn commits cur, cur⟩, by simp [hd], ?_⟩
      cases cur
      simp_all
    · obtain ⟨tm0, h0⟩ := hB hd
      obtain ⟨td, h1, h2⟩ := hA _ _ _ h0
      exact ⟨td, by simp [hd, h0, h1], h2⟩
  · rw [if_neg hc] at hget
    exact hA y m tm hget

theorem putDay_monthOpen (commits : GoMap Key Int) (years : GoMap Int Tyear) (cur : Time) :
    MonthOpen (putDay commits years cur) cur.nextDay := by
  intro hd
  unfold Time.nextDay at hd ⊢
  by_cases h1 : cur.day < daysIn cur.month cur.year
  · simp only [if_pos h1]
    rw [putDay_monthAt]
    simp
  · rw [if_neg h1] at hd
    by_cases h2 : cur.month < 12
    · rw [if_pos h2] at hd; exact absurd rfl hd
    · rw [if_neg h2] at hd; exact absurd rfl hd

theorem fillYears_firstDays (commits : GoMap Key Int) (endDate : Time) :
    ∀ (fuel : Nat) (cur : Time) (years res : GoMap Int Tyear),
      FirstDays years → MonthOpen years cur →
      fillYears commits endDate fuel cur years = some res → FirstDays res := by
  intro fuel
  induction fuel with
  | zero =>
    intro cur years res hA _ h
    unfold fillYears at h
    by_cases hb : cur.Before endDate
    · rw [if_pos hb] at h; cases h
    · rw [if_neg hb] at h; cases h; exact hA
  | succ n ih =>
    intro cur years res hA hB h
    unfold fillYears at h
    by_cases hb : cur.Before endDate
    · rw [if_pos hb] at h
      exact ih _ _ _ (putDay_firstDays commits years cur hA hB)
        (putDay_monthOpen commits years cur) h
    · rw [if_neg hb] at h; cases h; exact hA


theorem daysIn_bounds (m year : Int) : 28 ≤ daysIn m year ∧ daysIn m year ≤ 31 := by
  unfold daysIn
  split_ifs <;> omega

theorem nextDay_valid (t : Time) (h : t.Valid) : t.nextDay.Valid := by
  obtain ⟨h1, h2, h3, h4⟩ := h
  have hb2 := daysIn_bounds (t.month + 1) t.year
  have hb3 := daysIn_bounds 1 (t.year + 1)
  unfold Time.Valid Time.nextDay
  split_ifs with a b <;> dsimp only <;> omega

theorem ord_nextDay (t : Time) (h : t.Valid) : t.ord < t.nextDay.ord := by
  obtain ⟨h1, h2, h3, h4⟩ := h
  have hb := daysIn_bounds t.month t.year
  unfold Time.nextDay
  split_ifs with a b
  · simp only [Time.ord]; omega
  · simp only [Time.ord]; omega
  · simp only [Time.ord]; omega

theorem ord_lt_of_before (t e : Time) (ht : t.Valid) (he : e.Valid) (h : t.Before e) :
    t.ord < e.ord := by
  obtain ⟨h1, h2, h3, h4⟩ := ht
  obtain ⟨e1, e2, e3, e4⟩ := he
  have hb := daysIn_bounds t.month t.year
  have hc := daysIn_bounds e.month e.year
  unfold Time.Before at h
  simp only [Time.ord]
  omega

/-- The calendar loop exits: its date moves forward one day at a time. -/
theorem fillYears_returns (commits : GoMap Key Int) (endDate : Time) (he : endDate.Valid) :
    ∀ (fuel : Nat) (cur : Time) (years : GoMap Int Tyear), cur.Valid →
      (endDate.ord - cur.ord).toNat ≤ fuel →
      ∃ res, fillYears commits endDate fuel cur years = some res := by
  intro fuel
  induction fuel with
  | zero =>
    intro cur years hv hm
    unfold fillYears
    by_cases hb : cur.Before endDate
    · have := ord_lt_of_before cur endDate hv he hb
      omega
    · exact ⟨years, by rw [if_neg hb]⟩
  | succ n ih =>
    intro cur years hv hm
    unfold fillYears
    by_cases hb : cur.Before endDate
    · rw [if_pos hb]
      have h1 := ord_lt_of_before cur endDate hv he hb
      have h2 := ord_nextDay cur hv
      exact ih _ _ (nextDay_valid cur hv) (by omega)
    · exact ⟨years, by rw [if_neg hb]⟩

theorem parseKey_valid (k : Key) : (parseKey k).Valid := by
  unfold parseKey
  by_cases h : k.WellFormed
  · rw [if_pos h]
    obtain ⟨_, _, h3, h4, h5, h6⟩ := h
    exact ⟨h3, h4, h5, h6⟩
  · rw [if_neg h]
    decide

theorem monthStart_valid (t : Time) (h : t.Valid) : t.monthStart.Valid := by
  have := daysIn_bounds t.month t.year
  exact ⟨h.1, h.2.1, le_refl _, by show (1 : Int) ≤ daysIn t.month t.year; omega⟩

theorem monthEnd_valid (t : Time) (h : t.Valid) : t.monthEnd.Valid := by
  have := daysIn_bounds t.month t.year
  exact ⟨h.1, h.2.1, by show (1 : Int) ≤ daysIn t.month t.year; omega, le_refl _⟩

theorem sortKeys_ne_nil (keys : List Key) (h : keys ≠ []) : sortKeys keys ≠ [] := by
  intro hs
  have hp := List.perm_insertionSort (fun a b => ¬ (parseKey b).Before (parseKey a)) keys
  unfold sortKeys at hs
  rw [hs] at hp
  exact h (List.Perm.nil_eq hp).symm

/-- The calendar of a non-empty map is built: both key reads succeed and the
loop exits. -/
theorem calendar_returns (r : HeatMapReport) (hne : r.CommitsMap ≠ []) :
    ∃ fuel years, r.calendar fuel = some years := by
  have hk : r.CommitsMap.keys ≠ [] := by
    unfold GoMap.keys
    simpa using hne
  have hs := sortKeys_ne_nil _ hk
  cases hh : (sortKeys r.CommitsMap.keys).head? with
  | none => rw [List.head?_eq_none_iff] at hh; exact absurd hh hs
  | some first =>
    cases hl : (sortKeys r.CommitsMap.keys).getLast? with
    | none => rw [List.getLast?_eq_none_iff] at hl; exact absurd hl hs
    | some last =>
      have he := monthEnd_valid _ (parseKey_valid last)
      have hst := monthStart_valid _ (parseKey_valid first)
      obtain ⟨res, hres⟩ := fillYears_returns r.CommitsMap _ he
        (((parseKey last).monthEnd.ord - (parseKey first).monthStart.ord).toNat) _ [] hst
        (le_refl _)
      refine ⟨((parseKey last).monthEnd.ord - (parseKey first).monthStart.ord).toNat, res, ?_⟩
      unfold HeatMapReport.calendar
      simp only [hh, hl]
      exact hres

theorem calendar_firstDays (r : HeatMapReport) (fuel : Nat) (years : GoMap Int Tyear)
    (h : r.calendar fuel = some years) : FirstDays years := by
  unfold HeatMapReport.calendar at h
  cases hh : (sortKeys r.CommitsMap.keys).head? with
  | none => simp [hh] at h
  | some first =>
    cases hl : (sortKeys r.CommitsMap.keys).getLast? with
    | none => simp [hh, hl] at h
    | some last =>
      simp only [hh, hl] at h
      refine fillYears_firstDays _ _ fuel _ [] years ?_ ?_ h
      · intro y m tm hget
        simp [monthAt, GoMap.get] at hget
      · intro hd
        exact absurd rfl hd


/-- C6: the calendar of a non-empty observation map is built, and every month
in it has the entry `Tdays[1]`, dated day 1 of that month and year, so the
`firstWeekDay` that `Tyear.p` reads is the weekday of the first of the month. -/
theorem firstWeekDay_of_first (r : HeatMapReport) (hne : r.CommitsMap ≠ []) :
    (∃ fuel years, r.calendar fuel = some years) ∧
    ∀ fuel years, r.calendar fuel = some years →
      ∀ y ty m tm, years.get y = some ty → ty.Tmonths.get m = some tm →
        (∃ td, tm.Tdays.get 1 = some td ∧ td.Date = ⟨y, m, 1⟩) ∧
          tm.firstWeekDay = Time.Weekday ⟨y, m, 1⟩ := by
  refine ⟨calendar_returns r hne, ?_⟩
  intro fuel years hcal y ty m tm hy hm
  have hfd := calendar_firstDays r fuel years hcal y m tm
    ((monthAt_eq_some years y m tm).2 ⟨ty, hy, hm⟩)
  refine ⟨hfd, ?_⟩
  obtain ⟨td, h1, h2⟩ := hfd
  unfold Tmonth.firstWeekDay
  rw [h1, Option.getD_some, h2]

set_option maxRecDepth 100000 in
theorem firstWeekDay_of_first_witness :
    ∃ ty tm, januaryCalendar.get 2023 = some ty ∧ ty.Tmonths.get 1 = some tm ∧
      tm.firstWeekDay = Time.Weekday ⟨2023, 1, 1⟩ ∧ Time.Weekday ⟨2023, 1, 1⟩ = 0 :=
  ⟨_, _, rfl, rfl,
    ((firstWeekDay_of_first ⟨[(⟨2023, 1, 15⟩, 3)]⟩ (by decide)).2 30 januaryCalendar
      (by decide) 2023 _ 1 _ rfl rfl).2, by decide⟩


theorem fillYears_more_fuel (commits : GoMap Key Int) (endDate : Time) (k : Nat) :
    ∀ (fuel : Nat) (cur : Time) (years res : GoMap Int Tyear),
      fillYears commits endDate fuel cur years = some res →
      fillYears commits endDate (fuel + k) cur years = some res := by
  intro fuel
  induction fuel with
  | zero =>
    intro cur years res h
    unfold fillYears at h
    by_cases hb : cur.Before endDate
    · rw [if_pos hb] at h; cases h
    · rw [if_neg hb] at h
      cases k with
      | zero => unfold fillYears; rw [if_neg hb]; exact h
      | succ k => rw [Nat.zero_add]; unfold fillYears; rw [if_neg hb]; exact h
  | succ n ih =>
    intro cur years res h
    unfold fillYears at h
    rw [Nat.add_right_comm]
    unfold fillYears
    by_cases hb : cur.Before endDate
    · rw [if_pos hb] at h ⊢
      exact ih _ _ _ h
    · rw [if_neg hb] at h ⊢
      exact h

theorem calendar_more_fuel (r : HeatMapReport) (fuel k : Nat) (years : GoMap Int Tyear)
    (h : r.calendar fuel = some years) : r.calendar (fuel + k) = some years := by
  unfold HeatMapReport.calendar at h ⊢
  cases hh : (sortKeys r.CommitsMap.keys).head? with
  | none => simp [hh] at h
  | some first =>
    cases hl : (sortKeys r.CommitsMap.keys).getLast? with
    | none => simp [hh, hl] at h
    | some last =>
      simp only [hh, hl] at h ⊢
      exact fillYears_more_fuel _ _ k fuel _ _ _ h

/-- The calendar does not depend on the fuel that was enough to build it. -/
theorem calendar_unique (r : HeatMapReport) (f1 f2 : Nat) (a b : GoMap Int Tyear)
    (h1 : r.calendar f1 = some a) (h2 : r.calendar f2 = some b) : a = b := by
  have e1 := calendar_more_fuel r f1 f2 a h1
  have e2 := calendar_more_fuel r f2 f1 b h2
  rw [Nat.add_comm] at e2
  rw [e1] at e2
  exact Option.some.inj e2

set_option maxRecDepth 100000 in
/-- C1 at the observations 2023-01-15: 3.  The calendar has the year 2023 with
the month 1 only, and that month holds the days 1 to 30: January 31, the last
day of the range, has no `Tday`, whatever the fuel. -/
theorem calendar_january_lacks_day_31 :
    HeatMapReport.calendar 30 ⟨[(⟨2023, 1, 15⟩, 3)]⟩ = some januaryCalendar ∧
    (∀ fuel years, HeatMapReport.calendar fuel ⟨[(⟨2023, 1, 15⟩, 3)]⟩ = some years →
      years = januaryCalendar) ∧
    januaryCalendar.keys = [2023] ∧
    (januaryCalendar.get 2023).map (fun ty => ty.Tmonths.keys) = some [1] ∧
    (monthAt januaryCalendar 2023 1).map (fun tm => tm.Tdays.keys) =
      some [1, 2, 3, 4, 5, 6, 7, 8, 9, 10, 11, 12, 13, 14, 15, 16, 17, 18, 19, 20, 21, 22, 23,
        24, 25, 26, 27, 28, 29, 30] ∧
    dayAt januaryCalendar 2023 1 15 = some ⟨3, ⟨2023, 1, 15⟩⟩ ∧
    dayAt januaryCalendar 2023 1 30 = some ⟨0, ⟨2023, 1, 30⟩⟩ ∧
    dayAt januaryCalendar 2023 1 31 = none := by
  refine ⟨by decide, ?_, by decide, by decide, by decide, by decide, by decide, by decide⟩
  intro fuel years h
  exact calendar_unique _ fuel 30 _ _ h (by decide)

set_option maxRecDepth 100000 in
/-- C2 at the observations 2023-01-31: 5.  The date is a key of the map with
value 5, and the calendar, built with 30 passes of the loop, has no `Tday` at
year 2023, month 1, day 31; it ends with day 30, whose count is 0. -/
theorem calendar_drops_last_day_count :
    GoMap.get [((⟨2023, 1, 31⟩ : Key), (5 : Int))] ⟨2023, 1, 31⟩ = some 5 ∧
    (HeatMapReport.calendar 30 ⟨[(⟨2023, 1, 31⟩, 5)]⟩).map
      (fun years => (dayAt years 2023 1 30, dayAt years 2023 1 31)) =
      some (some ⟨0, ⟨2023, 1, 30⟩⟩, none) ∧
    ∀ fuel years, HeatMapReport.calendar fuel ⟨[(⟨2023, 1, 31⟩, 5)]⟩ = some years →
      dayAt years 2023 1 31 = none := by
  refine ⟨by decide, by decide, ?_⟩
  intro fuel years h
  have h30 : ∃ ys, HeatMapReport.calendar 30 ⟨[(⟨2023, 1, 31⟩, 5)]⟩ = some ys ∧
      dayAt ys 2023 1 31 = none := by
    refine ⟨(HeatMapReport.calendar 30 ⟨[(⟨2023, 1, 31⟩, 5)]⟩).getD [], by decide, by decide⟩
  obtain ⟨ys, hys, hd⟩ := h30
  rw [calendar_unique _ fuel 30 _ _ h hys]
  exact hd


/-! ## The no-data path -/

theorem noCommitsLine_not_mem_rowOut (i : Nat) (row : List MonthColumn) :
    noCommitsLine ∉ rowOut i row := by
  unfold rowOut noCommitsLine
  simp only [List.mem_append, List.mem_cons, List.mem_singleton, List.not_mem_nil, or_false,
    List.mem_flatten, List.mem_map, not_or]
  refine ⟨⟨⟨by simp, by simp⟩, ?_⟩, by simp⟩
  rintro ⟨l, ⟨col, _, rfl⟩, hmem⟩
  rw [List.mem_append, List.mem_map] at hmem
  rcases hmem with ⟨c, _, hc⟩ | hmem
  · cases c with
    | none => simp [cellOut] at hc
    | some d => simp [cellOut] at hc
  · simp at hmem

theorem noCommitsLine_not_mem_group (g : LineGroup) : noCommitsLine ∉ g.out := by
  unfold LineGroup.out
  simp only [List.mem_append, List.mem_flatten, List.mem_map, not_or]
  refine ⟨⟨⟨by simp [noCommitsLine], ?_⟩, by simp [noCommitsLine]⟩, ?_⟩
  · rintro ⟨l, ⟨h, _, rfl⟩, hmem⟩
    simp [noCommitsLine] at hmem
  · rintro ⟨l, ⟨ir, _, rfl⟩, hmem⟩
    exact noCommitsLine_not_mem_rowOut _ _ hmem

theorem noCommitsLine_not_mem_p (fuel : Nat) (y : Tyear) (width : Int) (out : List Out)
    (h : y.p fuel width = some out) : noCommitsLine ∉ out := by
  unfold Tyear.p at h
  cases hg : y.lineGroups fuel width with
  | none => simp [hg] at h
  | some groups =>
    rw [hg] at h
    simp only [Option.map_some', Option.some.injEq] at h
    subst h
    simp only [List.mem_append, List.mem_flatten, List.mem_map, not_or]
    refine ⟨by simp [noCommitsLine], ?_⟩
    rintro ⟨l, ⟨g, _, rfl⟩, hmem⟩
    exact noCommitsLine_not_mem_group g hmem

theorem noCommitsLine_not_mem_printYears (fuel : Nat) (years : GoMap Int Tyear) (width : Int) :
    ∀ (ks : List Int) (out : List Out), printYears fuel years width ks = some out →
      noCommitsLine ∉ out := by
  intro ks
  induction ks with
  | nil =>
    intro out h
    simp only [printYears, Option.some.injEq] at h
    subst h
    simp
  | cons k rest ih =>
    intro out h
    unfold printYears at h
    cases hp : ((years.get k).getD Tyear.zero).p fuel width with
    | none => simp [hp] at h
    | some o =>
      cases hr : printYears fuel years width rest with
      | none => simp [hp, hr] at h
      | some os =>
        simp only [hp, hr, Option.some.injEq] at h
        subst h
        rw [List.mem_append, not_or]
        exact ⟨noCommitsLine_not_mem_p _ _ _ _ hp, ih os hr⟩

/-- C8: for an empty `CommitsMap` the whole output of `Print` is the one line
`No commits where found!`, with no year grid and no legend, and no loop is
run; for a non-empty map that line is not printed. -/
theorem Print_no_data (r : HeatMapReport) (fuel : Nat) (width : Int) :
    (r.CommitsMap = [] →
      r.Print fuel width = some [Out.fmtPrintln "No commits where found!"]) ∧
    (r.CommitsMap ≠ [] → ∀ out, r.Print fuel width = some out →
      Out.fmtPrintln "No commits where found!" ∉ out) := by
  constructor
  · intro h
    unfold HeatMapReport.Print
    simp [h]
  · intro hne out h
    unfold HeatMapReport.Print at h
    have hlen : r.CommitsMap.length ≠ 0 := by
      intro hc
      exact hne (List.length_eq_zero.1 hc)
    rw [if_neg hlen] at h
    cases hc : r.calendar fuel with
    | none => simp [hc] at h
    | some years =>
      simp only [hc] at h
      cases hp : printYears fuel years width (years.keys.insertionSort (fun a b => a ≤ b)) with
      | none => simp [hp] at h
      | some o =>
        simp only [hp, Option.map_some', Option.some.injEq] at h
        subst h
        rw [List.mem_append, not_or]
        exact ⟨noCommitsLine_not_mem_printYears _ _ _ _ _ hp, by decide⟩

set_option maxRecDepth 100000 in
theorem Print_no_data_witness :
    HeatMapReport.Print 0 ⟨[]⟩ 80 = some [Out.fmtPrintln "No commits where found!"] ∧
    ∃ out, HeatMapReport.Print 30 ⟨[(⟨2023, 1, 15⟩, 3)]⟩ 80 = some out ∧
      Out.yearHeader 2023 ∈ out ∧ Out.fmtPrintln "No commits where found!" ∉ out :=
  ⟨(Print_no_data ⟨[]⟩ 0 80).1 rfl,
    (HeatMapReport.Print 30 ⟨[(⟨2023, 1, 15⟩, 3)]⟩ 80).getD [], by decide, by decide,
    (Print_no_data ⟨[(⟨2023, 1, 15⟩, 3)]⟩ 30 80).2 (by decide) _ (by decide)⟩


/-! ## Line groups of a year that starts in June -/

set_option maxRecDepth 1000000 in
/-- C3 at the observations 2023-06-10: 1 and 2023-12-05: 1 and the terminal
width 30, where `monthPerLine` is 3.  The year 2023 has the months 6 to 12.
The first line group names and shows the months 6, 7, 8; the header of the
second names 9, 10, 11 while its weekday rows show 6 to 11, and the header of
the third names 12 while its rows show 7 to 12. -/
theorem lineGroups_june_to_december :
    ((HeatMapReport.calendar 213 ⟨[(⟨2023, 6, 10⟩, 1), (⟨2023, 12, 5⟩, 1)]⟩).bind
        (fun years => ((years.get 2023).getD Tyear.zero).lineGroups 7 30)).map
      (fun groups => groups.map (fun g => (g.headerMonths, g.rowMonths))) =
    some [([6, 7, 8], List.replicate 7 [6, 7, 8]),
      ([9, 10, 11], List.replicate 7 [6, 7, 8, 9, 10, 11]),
      ([12], List.replicate 7 [7, 8, 9, 10, 11, 12])] := by
  decide


/-! ## The weekday of the following day -/

theorem isLeap_iff (year : Int) :
    isLeap year = true ↔ year % 4 = 0 ∧ (year % 100 ≠ 0 ∨ year % 400 = 0) := by
  unfold isLeap
  simp

theorem daysBeforeMonth_succ (m year : Int) (h : 1 ≤ m) :
    daysBeforeMonth (m + 1) year = daysBeforeMonth m year + daysIn m year := by
  unfold daysBeforeMonth
  have e : (m + 1 - 1).toNat = (m - 1).toNat + 1 := by omega
  rw [e, List.range_succ, List.map_append, List.sum_append]
  simp only [List.map_cons, List.map_nil, List.sum_cons, List.sum_nil, add_zero]
  have e2 : (((m - 1).toNat : Nat) : Int) + 1 = m := by omega
  rw [e2]

theorem daysBeforeMonth_twelve (year : Int) :
    daysBeforeMonth 12 year + daysIn 12 year = if isLeap year then 366 else 365 := by
  have e : ((12 : Int) - 1).toNat = 11 := rfl
  unfold daysBeforeMonth
  rw [e]
  simp only [List.range_succ, List.range_zero, List.nil_append, List.cons_append,
    List.map_cons, List.map_nil, List.sum_cons, List.sum_nil, daysIn]
  norm_num
  split_ifs <;> rfl

/-- The day after a civil date is one day later in the day count on which
`Weekday` is computed. -/
theorem daysSinceEpoch_nextDay (t : Time) (h : t.Valid) :
    t.nextDay.daysSinceEpoch = t.daysSinceEpoch + 1 := by
  obtain ⟨h1, h2, h3, h4⟩ := h
  unfold Time.nextDay
  split_ifs with a b
  · simp only [Time.daysSinceEpoch]; omega
  · simp only [Time.daysSinceEpoch]
    rw [daysBeforeMonth_succ _ _ h1]
    omega
  · have hm : t.month = 12 := by omega
    have hd : t.day = daysIn 12 t.year := by rw [hm] at a h4; omega
    have h12 := daysBeforeMonth_twelve t.year
    have h0 : daysBeforeMonth 1 (t.year + 1) = 0 := by simp [daysBeforeMonth]
    simp only [Time.daysSinceEpoch]
    rw [hm, hd, h0]
    by_cases hl : isLeap t.year = true
    · rw [if_pos hl] at h12
      have := (isLeap_iff t.year).1 hl
      omega
    · rw [if_neg hl] at h12
      have := (not_congr (isLeap_iff t.year)).1 hl
      omega

/-- The weekday advances by one, modulo 7, from a date to the next. -/
theorem weekday_nextDay (t : Time) (h : t.Valid) :
    t.nextDay.Weekday = (t.Weekday + 1) % 7 := by
  unfold Time.Weekday
  rw [daysSinceEpoch_nextDay t h]
  omega

/-! ## Layout planning: width 80, the bound of the search, the closed form -/

/-- C11, as stated, fails: at width 80 the search gives `monthPerLine` 10, and
the margin 5 plus 10 columns of `7 + 1` characters is 85, more than 80. -/
theorem monthPerLine_eighty_times_eight :
    monthPerLine 7 80 = some 10 ∧ ¬ ((5 : Int) + 10 * (7 + 1) ≤ 80) := by
  decide

/-- C11, amended: at the terminal width 80 the offset search of `Tyear.p`
succeeds, at offset 11, and the `monthPerLine` 10 it yields satisfies
`margin + m * (monthW + 1) ≤ 80` for the margin 5 and the month column of
`monthW + 1 = 7` characters that the code prints. -/
theorem monthPerLine_eighty (fuel : Nat) (hf : 7 ≤ fuel) :
    searchOffset 80 6 fuel (1 + 5) = some 11 ∧
      ∃ m, monthPerLine fuel 80 = some m ∧ m = 10 ∧ 5 + m * (6 + 1) ≤ 80 := by
  refine ⟨?_, 10, ?_, rfl, by decide⟩
  · have h := searchOffset_eq 80 fuel 6 (by
      have : ((80 : Int) + 1 - 6) % 7 = 5 := by decide
      rw [this]
      show 5 < fuel
      omega)
    have e : (6 : Int) + (80 + 1 - 6) % 7 = 11 := by decide
    rw [e] at h
    exact h
  · rw [monthPerLine_eq 80 fuel hf]
    rfl

theorem monthPerLine_eighty_witness :
    7 ≤ 8 ∧ searchOffset 80 6 8 (1 + 5) = some 11 ∧
      ∃ m, monthPerLine 8 80 = some m ∧ m = 10 ∧ 5 + m * (6 + 1) ≤ 80 :=
  ⟨by decide, monthPerLine_eighty 8 (by decide)⟩

/-- C18: for every integer terminal width the offset search of `Tyear.p`, with
Go's truncated remainder, breaks after `k` increments of `offset` for some
`k ≤ 6`: seven tests of the guard are always enough. -/
theorem searchOffset_terminates (width : Int) (fuel : Nat) (hf : 7 ≤ fuel) :
    ∃ k : Int, 0 ≤ k ∧ k ≤ 6 ∧ searchOffset width 6 fuel (1 + 5) = some (1 + 5 + k) ∧
      Int.tmod (width + 1 - (1 + 5 + k)) (6 + 1) = 0 ∧
      ∀ j : Int, 0 ≤ j → j < k → Int.tmod (width + 1 - (1 + 5 + j)) (6 + 1) ≠ 0 := by
  have h15 : ((1 : Int) + 5) = 6 := by norm_num
  have h61 : ((6 : Int) + 1) = 7 := by norm_num
  rw [h15, h61]
  refine ⟨(width + 1 - 6) % 7, by omega, by omega,
    searchOffset_eq width fuel 6 (by omega), ?_, ?_⟩
  · rw [tmod_seven_eq_zero_iff]; omega
  · intro j h0 hj
    rw [Ne, tmod_seven_eq_zero_iff]
    omega

theorem searchOffset_terminates_witness :
    ∃ k : Int, 0 ≤ k ∧ k ≤ 6 ∧ searchOffset 0 6 7 (1 + 5) = some (1 + 5 + k) ∧
      Int.tmod (0 + 1 - (1 + 5 + k)) (6 + 1) = 0 ∧
      ∀ j : Int, 0 ≤ j → j < k → Int.tmod (0 + 1 - (1 + 5 + j)) (6 + 1) ≠ 0 :=
  searchOffset_terminates 0 7 (by decide)

/-- C20: for every terminal width of at least 5 the `monthPerLine` of `Tyear.p`
is the floor of `(width - 5) / 7`: it is not negative, `5 + 7 * m` fits in the
width, and no larger number of 7-character month columns fits. -/
theorem monthPerLine_floor (width : Int) (fuel : Nat) (hw : 5 ≤ width) (hf : 7 ≤ fuel) :
    ∃ m, monthPerLine fuel width = some m ∧ m = (width - 5) / 7 ∧ 0 ≤ m ∧
      5 + 7 * m ≤ width ∧ width < 5 + 7 * (m + 1) ∧
      ∀ m2 : Int, 5 + 7 * m2 ≤ width → m2 ≤ m := by
  refine ⟨(width - 5) / 7, monthPerLine_eq width fuel hf, rfl, ?_, ?_, ?_, ?_⟩
  · omega
  · omega
  · omega
  · intro m2 h; omega

theorem monthPerLine_floor_witness :
    (5 : Int) ≤ 33 ∧ 7 ≤ 7 ∧ ∃ m, monthPerLine 7 33 = some m ∧ m = (33 - 5) / 7 ∧ 0 ≤ m ∧
      5 + 7 * m ≤ 33 ∧ 33 < 5 + 7 * (m + 1) ∧
      ∀ m2 : Int, 5 + 7 * m2 ≤ 33 → m2 ≤ m :=
  ⟨by decide, by decide, monthPerLine_floor 33 7 (by decide) (by decide)⟩

/-! ## The legend -/

/-- C15: `commitCountGuide` prints a blank line, the title, six legend entries
and a line end; entry `i` has the label `commitCountRange[i]` on the colour
`getColor (5 * i)`, the six colours are those of the buckets L0 to L5 in
order, and the colour of an entry is the colour of every count in the range
its label names. -/
theorem commitCountGuide_entries :
    commitCountGuide =
      [Out.fmtPrintln "", Out.ptermPrint "Blue" "commits count guide:",
        Out.guideEntry (getColor (5 * 0)) "  .0.  ",
        Out.guideEntry (getColor (5 * 1)) " *1-5* ",
        Out.guideEntry (getColor (5 * 2)) "*06-10*",
        Out.guideEntry (getColor (5 * 3)) "*11-15*",
        Out.guideEntry (getColor (5 * 4)) "*16-20*",
        Out.guideEntry (getColor (5 * 5)) " *20<* ",
        Out.fmtPrintln ""] ∧
    [0, 1, 2, 3, 4, 5].map (fun i : Int => getColor (5 * i)) =
      ["178;215;155", "139;195;74", "34;139;34", "0;100;0", "0;128;128", "0;64;0"] ∧
    ∀ n : Int,
      (n = 0 → getColor n = getColor (5 * 0)) ∧
      (1 ≤ n ∧ n ≤ 5 → getColor n = getColor (5 * 1)) ∧
      (6 ≤ n ∧ n ≤ 10 → getColor n = getColor (5 * 2)) ∧
      (11 ≤ n ∧ n ≤ 15 → getColor n = getColor (5 * 3)) ∧
      (16 ≤ n ∧ n ≤ 20 → getColor n = getColor (5 * 4)) ∧
      (20 < n → getColor n = getColor (5 * 5)) := by
  refine ⟨by decide, by decide, ?_⟩
  intro n
  refine ⟨?_, ?_, ?_, ?_, ?_, ?_⟩
  · intro h; rw [h]; rfl
  · intro h
    have a : n ≠ 0 := by omega
    simp [getColor, a, h.2]
  · intro h
    have a : n ≠ 0 := by omega
    have b : ¬ n ≤ 5 := by omega
    simp [getColor, a, b, h.2]
  · intro h
    have a : n ≠ 0 := by omega
    have b : ¬ n ≤ 5 := by omega
    have c : ¬ n ≤ 10 := by omega
    simp [getColor, a, b, c, h.2]
  · intro h
    have a : n ≠ 0 := by omega
    have b : ¬ n ≤ 5 := by omega
    have c : ¬ n ≤ 10 := by omega
    have d : ¬ n ≤ 15 := by omega
    simp [getColor, a, b, c, d, h.2]
  · intro h
    have a : n ≠ 0 := by omega
    have b : ¬ n ≤ 5 := by omega
    have c : ¬ n ≤ 10 := by omega
    have d : ¬ n ≤ 15 := by omega
    have e : ¬ n ≤ 20 := by omega
    simp [getColor, a, b, c, d, e]

/-! ## What the month loops of `Tyear.p` visit -/

/-- Where the month loop of a weekday row leaves `monthIndex`: one past the
bound of the guard, unless it started beyond it. -/
theorem rowLoop_final (y : Tyear) (f m L i : Int) :
    ∀ (n : Nat) (mi : Int), (13 - mi).toNat ≤ n →
      (rowLoop y f m L i n mi).2 = max mi (min (L * m + f) 13) := by
  intro n
  induction n with
  | zero =>
    intro mi h
    simp only [rowLoop]
    omega
  | succ n ih =>
    intro mi h
    unfold rowLoop
    by_cases hg : mi - f + 1 ≤ L * m ∧ mi < 13
    · rw [if_pos hg]
      cases hget : y.Tmonths.get mi with
      | none =>
        simp only
        rw [ih (mi + 1) (by omega)]
        omega
      | some value =>
        simp only
        rw [ih (mi + 1) (by omega)]
        omega
    · rw [if_neg hg]
      simp only
      have : ¬ (mi - f + 1 ≤ L * m) ∨ ¬ mi < 13 := by tauto
      omega

theorem mem_monthNumbers (k : Int) : k ∈ monthNumbers ↔ 1 ≤ k ∧ k ≤ 12 := by
  simp only [monthNumbers, List.mem_cons, List.mem_singleton, List.not_mem_nil, or_false]
  omega

theorem monthNumbers_sorted : monthNumbers.Sorted (· < ·) := by
  decide

/-- The method `getFirstMonth` returns a stored month of `1..12` before which no
month of `1..12` is stored. -/
theorem getFirstMonth_spec (y : Tyear) (f : Int) (h : y.getFirstMonth = some f) :
    1 ≤ f ∧ f ≤ 12 ∧ (y.Tmonths.get f).isSome = true ∧
      ∀ k, 1 ≤ k → k < f → (y.Tmonths.get k).isSome = false := by
  have h2 : monthNumbers.find? (fun i => (y.Tmonths.get i).isSome) = some f := h
  have hmem := (mem_monthNumbers f).1 (List.mem_of_find?_eq_some h2)
  rw [List.find?_eq_some] at h2
  obtain ⟨hp, as, bs, hl, hno⟩ := h2
  refine ⟨hmem.1, hmem.2, hp, ?_⟩
  intro k h1 hk
  have hkm : k ∈ monthNumbers := (mem_monthNumbers k).2 ⟨h1, by omega⟩
  have hs := monthNumbers_sorted
  rw [hl] at hkm hs
  rw [List.mem_append, List.mem_cons] at hkm
  rcases hkm with hk1 | hk2 | hk3
  · have := hno k hk1
    simpa using this
  · omega
  · have hp2 := (List.pairwise_append.1 hs).2.1
    have := (List.pairwise_cons.1 hp2).1 k hk3
    omega

/-- With `monthPerLine ≤ 0` the outer loop of `Tyear.p` never reaches
`monthIndex = 13`: no amount of fuel lets it return. -/
theorem groupLoop_diverges (y : Tyear) (f m : Int) (hm : m ≤ 0) (hf : f ≤ 12) :
    ∀ (fuel : Nat) (mi L : Int), mi < 13 → 1 ≤ L → groupLoop y f m fuel mi L = none := by
  intro fuel
  induction fuel with
  | zero =>
    intro mi L h13 _
    unfold groupLoop
    rw [if_pos h13]
  | succ n ih =>
    intro mi L h13 hL
    unfold groupLoop
    rw [if_pos h13]
    simp only
    have hfin := rowLoop_final y f m L 6 (13 - rowStart m L).toNat (rowStart m L) (le_refl _)
    have h1 : m * (L - 1) ≤ 0 := mul_nonpos_of_nonpos_of_nonneg hm (by omega)
    have h2 : L * m ≤ 0 := mul_nonpos_of_nonneg_of_nonpos (by omega) hm
    have hlt : (rowLoop y f m L 6 (13 - rowStart m L).toNat (rowStart m L)).2 < 13 := by
      rw [hfin]
      unfold rowStart
      omega
    rw [ih _ (L + 1) hlt (by omega)]
    rfl

/-- Whatever the fuel, an offset search that breaks does so at the same offset. -/
theorem searchOffset_some (width : Int) :
    ∀ (fuel : Nat) (offset r : Int), searchOffset width 6 fuel offset = some r →
      r = offset + (width + 1 - offset) % 7 := by
  intro fuel
  induction fuel with
  | zero => intro offset r h; simp [searchOffset] at h
  | succ n ih =>
    intro offset r h
    unfold searchOffset at h
    have h6 : ((6 : Int) + 1) = 7 := by norm_num
    rw [h6] at h
    by_cases hz : Int.tmod (width + 1 - offset) 7 = 0
    · rw [if_pos hz] at h
      have := (tmod_seven_eq_zero_iff _).1 hz
      have hr := Option.some.inj h
      omega
    · rw [if_neg hz] at h
      have hne : (width + 1 - offset) % 7 ≠ 0 := fun hc => hz ((tmod_seven_eq_zero_iff _).2 hc)
      have := ih (offset + 1) r h
      omega

theorem monthPerLine_some (width : Int) (fuel : Nat) (m : Int)
    (h : monthPerLine fuel width = some m) : m = (width - 5) / 7 := by
  unfold monthPerLine at h
  have h15 : ((1 : Int) + 5) = 6 := by norm_num
  have h6 : ((6 : Int) + 1) = 7 := by norm_num
  simp only [h15, h6] at h
  cases hs : searchOffset width 6 fuel 6 with
  | none => rw [hs] at h; cases h
  | some off =>
    rw [hs] at h
    simp only [Option.map_some', Option.some.injEq] at h
    have hoff := searchOffset_some width fuel 6 off hs
    have hd : (7 : Int) ∣ width + 1 - off := by
      apply Int.dvd_of_emod_eq_zero; omega
    rw [Int.tdiv_eq_ediv_of_dvd hd] at h
    omega

theorem lineGroups_diverges (y : Tyear) (f : Int) (hf : y.getFirstMonth = some f)
    (width : Int) (hw : width ≤ 11) (fuel : Nat) : y.lineGroups fuel width = none := by
  unfold Tyear.lineGroups
  cases hm : monthPerLine fuel width with
  | none => rfl
  | some m =>
    simp only [hf]
    have hspec := getFirstMonth_spec y f hf
    have hm0 : m ≤ 0 := by
      have := monthPerLine_some width fuel m hm
      omega
    exact groupLoop_diverges y f m hm0 hspec.2.1 fuel f 1 (by omega) (le_refl _)

/-- C17 at the year 2023 of the observations 2023-01-15: 3 and the terminal
width 0, the width read when `term.GetSize` fails: `monthPerLine` is -1, every
pass of the outer loop of `Tyear.p` leaves `monthIndex` below 13, and neither
the year nor `Print` returns, whatever the fuel. -/
theorem p_never_returns_at_width_zero :
    monthPerLine 7 0 = some (-1) ∧
    Tyear.getFirstMonth ((januaryCalendar.get 2023).getD Tyear.zero) = some 1 ∧
    (∀ fuel, Tyear.lineGroups fuel ((januaryCalendar.get 2023).getD Tyear.zero) 0 = none) ∧
    (∀ fuel, Tyear.p fuel ((januaryCalendar.get 2023).getD Tyear.zero) 0 = none) ∧
    ∀ fuel, HeatMapReport.Print fuel ⟨[(⟨2023, 1, 15⟩, 3)]⟩ 0 = none := by
  have hfm : Tyear.getFirstMonth ((januaryCalendar.get 2023).getD Tyear.zero) = some 1 := by
    decide
  have hlg : ∀ fuel,
      Tyear.lineGroups fuel ((januaryCalendar.get 2023).getD Tyear.zero) 0 = none :=
    fun fuel => lineGroups_diverges _ 1 hfm 0 (by decide) fuel
  have hp : ∀ fuel, Tyear.p fuel ((januaryCalendar.get 2023).getD Tyear.zero) 0 = none := by
    intro fuel
    unfold Tyear.p
    rw [hlg fuel]
    rfl
  refine ⟨by decide, hfm, hlg, hp, ?_⟩
  intro fuel
  unfold HeatMapReport.Print
  have hlen : ¬ ([((⟨2023, 1, 15⟩ : Key), (3 : Int))] : GoMap Key Int).length = 0 := by decide
  rw [if_neg hlen]
  cases hc : HeatMapReport.calendar fuel ⟨[(⟨2023, 1, 15⟩, 3)]⟩ with
  | none => rfl
  | some years =>
    have hy : years = januaryCalendar :=
      calendar_unique _ fuel 30 _ _ hc (by decide)
    subst hy
    have hk : januaryCalendar.keys.insertionSort (fun a b => a ≤ b) = [2023] := by decide
    simp only [hk, printYears, hp fuel]
    rfl

/-! ## The header rows pack the months from the first stored month -/

theorem secondHalfYear_headers :
    (Tyear.lineGroups 12 secondHalfYear 30).map (fun gs => gs.map LineGroup.headerMonths) =
      some [[6, 7, 8], [9, 10, 11], [12]] := by
  decide

/-! ## The key reads of `main.go` -/

/-- C19 at a log without a commit of the given author: the map `commits` of
`main` is empty, the key slice is empty, and both reads `keys[0]` and
`keys[len(keys)-1]` are out of range, so `main` panics; a map that is not
empty has both reads in range.  `HeatMapReport.Print` tests the length first
and prints its no-data line. -/
theorem main_key_reads_empty :
    Main.commits "dev@example.org" [⟨"other@example.org", ⟨2023, 1, 15⟩⟩] = [] ∧
    sliceAt (sortKeys (GoMap.keys ([] : GoMap Key Int))) 0 = none ∧
    sliceAt (sortKeys (GoMap.keys ([] : GoMap Key Int)))
      (((sortKeys (GoMap.keys ([] : GoMap Key Int))).length : Int) - 1) = none ∧
    Main.dateRange [] = none ∧
    (∀ commits : GoMap Key Int, commits ≠ [] → (Main.dateRange commits).isSome = true) ∧
    ∀ (fuel : Nat) (width : Int),
      HeatMapReport.Print fuel ⟨[]⟩ width = some [Out.fmtPrintln "No commits where found!"] := by
  refine ⟨by decide, by decide, by decide, by decide, ?_, ?_⟩
  · intro commits hne
    have hk : commits.keys ≠ [] := by
      unfold GoMap.keys
      simpa using hne
    have hs := sortKeys_ne_nil _ hk
    unfold Main.dateRange
    cases hl : sortKeys commits.keys with
    | nil => exact absurd hl hs
    | cons a t =>
      have h0 : sliceAt (a :: t) 0 = some a := by
        simp [sliceAt]
      have h1 : ∃ b, sliceAt (a :: t) (((a :: t).length : Int) - 1) = some b := by
        have hlt : t.length < (a :: t).length := by simp
        refine ⟨(a :: t).get ⟨t.length, hlt⟩, ?_⟩
        unfold sliceAt
        have e : (((a :: t).length : Int) - 1).toNat = t.length := by
          simp
        rw [if_pos (by simp), e]
        exact List.getElem?_eq_getElem hlt
      obtain ⟨b, hb⟩ := h1
      simp only [h0, hb]
      rfl
  · intro fuel width
    unfold HeatMapReport.Print
    simp
/-! ## Keys of commits: the text of a key and the counts -/

theorem digitChar_ne_dash (d : Nat) (h : d < 10) : Nat.digitChar d ≠ '-' := by
  interval_cases d <;> decide

theorem digitChar_toNat (d : Nat) (h : d < 10) : (Nat.digitChar d).toNat - 48 = d := by
  interval_cases d <;> rfl

theorem ofDigitsRev_digitsRev :
    ∀ (fuel u : Nat), u < fuel → ofDigitsRev (digitsRev fuel u) = u := by
  intro fuel
  induction fuel with
  | zero =>
    intro u h
    omega
  | succ n ih =>
    intro u h
    unfold digitsRev
    by_cases h10 : u < 10
    · rw [if_pos h10]
      simp only [ofDigitsRev, digitChar_toNat u h10]
      omega
    · rw [if_neg h10]
      simp only [ofDigitsRev, digitChar_toNat (u % 10) (Nat.mod_lt u (by decide))]
      rw [ih (u / 10) (by omega)]
      omega

theorem digitsRev_no_dash : ∀ (fuel u : Nat), ∀ c ∈ digitsRev fuel u, c ≠ '-' := by
  intro fuel
  induction fuel with
  | zero =>
    intro u c hc
    simp [digitsRev] at hc
  | succ n ih =>
    intro u c hc
    unfold digitsRev at hc
    by_cases h10 : u < 10
    · rw [if_pos h10, List.mem_singleton] at hc
      rw [hc]
      exact digitChar_ne_dash u h10
    · rw [if_neg h10, List.mem_cons] at hc
      rcases hc with hc | hc
      · rw [hc]
        exact digitChar_ne_dash _ (Nat.mod_lt u (by decide))
      · exact ih _ c hc

theorem digitsRev_ne_nil (fuel u : Nat) : digitsRev (fuel + 1) u ≠ [] := by
  unfold digitsRev
  split_ifs <;> simp

theorem formatNat_injective (a b : Nat) (h : formatNat a = formatNat b) : a = b := by
  unfold formatNat at h
  have h2 := List.reverse_injective h
  have ha := ofDigitsRev_digitsRev (a + 1) a (by omega)
  have hb := ofDigitsRev_digitsRev (b + 1) b (by omega)
  rw [h2] at ha
  omega

theorem formatNat_no_dash (u : Nat) : ∀ c ∈ formatNat u, c ≠ '-' := by
  intro c hc
  unfold formatNat at hc
  rw [List.mem_reverse] at hc
  exact digitsRev_no_dash (u + 1) u c hc

theorem formatNat_ne_nil (u : Nat) : formatNat u ≠ [] := by
  unfold formatNat
  intro h
  exact digitsRev_ne_nil u u (List.reverse_eq_nil_iff.1 h)

theorem formatInt_injective (a b : Int) (h : formatInt a = formatInt b) : a = b := by
  unfold formatInt at h
  by_cases ha : a < 0 <;> by_cases hb : b < 0
  · rw [if_pos ha, if_pos hb] at h
    have := formatNat_injective _ _ (List.cons_injective h)
    omega
  · rw [if_pos ha, if_neg hb] at h
    exfalso
    have hm : '-' ∈ formatNat b.natAbs := by rw [← h]; exact List.mem_cons_self _ _
    exact formatNat_no_dash _ _ hm rfl
  · rw [if_neg ha, if_pos hb] at h
    exfalso
    have hm : '-' ∈ formatNat a.natAbs := by rw [h]; exact List.mem_cons_self _ _
    exact formatNat_no_dash _ _ hm rfl
  · rw [if_neg ha, if_neg hb] at h
    have := formatNat_injective _ _ h
    omega

theorem formatInt_no_dash (n : Int) (h : 0 ≤ n) : ∀ c ∈ formatInt n, c ≠ '-' := by
  unfold formatInt
  rw [if_neg (by omega)]
  exact formatNat_no_dash _

/-- Two texts cut at a separator that occurs in neither tail are equal piece by
piece. -/
theorem append_sep_inj (sep : Char) :
    ∀ (x1 x2 t1 t2 : List Char), (∀ c ∈ t1, c ≠ sep) → (∀ c ∈ t2, c ≠ sep) →
      x1 ++ sep :: t1 = x2 ++ sep :: t2 → x1 = x2 ∧ t1 = t2 := by
  intro x1 x2 t1 t2 h1 h2 h
  have hr := congrArg List.reverse h
  simp only [List.reverse_append, List.reverse_cons, List.append_assoc, List.singleton_append]
    at hr
  have key : ∀ (a b u v : List Char), (∀ c ∈ a, c ≠ sep) → (∀ c ∈ b, c ≠ sep) →
      a ++ sep :: u = b ++ sep :: v → a = b ∧ u = v := by
    intro a
    induction a with
    | nil =>
      intro b u v _ hb hab
      cases b with
      | nil => exact ⟨rfl, by simpa using hab⟩
      | cons c b =>
        exfalso
        simp only [List.nil_append, List.cons_append, List.cons.injEq] at hab
        exact hb c (List.mem_cons_self _ _) hab.1.symm
    | cons c a ih =>
      intro b u v ha hb hab
      cases b with
      | nil =>
        exfalso
        simp only [List.nil_append, List.cons_append, List.cons.injEq] at hab
        exact ha c (List.mem_cons_self _ _) hab.1
      | cons d b =>
        simp only [List.cons_append, List.cons.injEq] at hab
        obtain ⟨r1, r2⟩ := ih b u v (fun c hc => ha c (List.mem_cons_of_mem _ hc))
          (fun c hc => hb c (List.mem_cons_of_mem _ hc)) hab.2
        exact ⟨by rw [hab.1, r1], r2⟩
  obtain ⟨r1, r2⟩ := key t1.reverse t2.reverse x1.reverse x2.reverse
    (fun c hc => h1 c (List.mem_reverse.1 hc)) (fun c hc => h2 c (List.mem_reverse.1 hc)) hr
  exact ⟨List.reverse_injective r2, List.reverse_injective r1⟩

/-- Keys of dates with the same text are the same key: the text of a key
determines its three numbers when month and day are not negative. -/
theorem Key.text_injective (k1 k2 : Key) (hm1 : 0 ≤ k1.month) (hd1 : 0 ≤ k1.day)
    (hm2 : 0 ≤ k2.month) (hd2 : 0 ≤ k2.day) (h : k1.text = k2.text) : k1 = k2 := by
  unfold Key.text at h
  have h2 := congrArg String.data h
  simp only at h2
  have e : ∀ (a b c : List Char), a ++ '-' :: (b ++ '-' :: c) = (a ++ '-' :: b) ++ '-' :: c := by
    intro a b c; simp
  rw [e, e] at h2
  obtain ⟨hfront, hday⟩ :=
    append_sep_inj '-' _ _ _ _ (formatInt_no_dash _ hd1) (formatInt_no_dash _ hd2) h2
  obtain ⟨hyear, hmonth⟩ :=
    append_sep_inj '-' _ _ _ _ (formatInt_no_dash _ hm1) (formatInt_no_dash _ hm2) hfront
  have hy := formatInt_injective _ _ hyear
  have hm := formatInt_injective _ _ hmonth
  have hd := formatInt_injective _ _ hday
  cases k1
  cases k2
  simp only at hy hm hd
  subst hy; subst hm; subst hd
  rfl

/-- The texts of three keys, among them a year of one digit and a negative year. -/
theorem Key.text_samples :
    (⟨2023, 1, 15⟩ : Key).text = "2023-1-15" ∧ (⟨2022, 12, 5⟩ : Key).text = "2022-12-5" ∧
      (⟨0, 10, 31⟩ : Key).text = "0-10-31" ∧ (⟨-44, 3, 15⟩ : Key).text = "-44-3-15" := by
  decide

theorem wrapInt_eq (x : Int) (h1 : -2 ^ 63 ≤ x) (h2 : x < 2 ^ 63) : wrapInt x = x := by
  unfold wrapInt
  omega

/-- The increment of the largest `int` gives the least `int`. -/
theorem wrapInt_max : wrapInt (9223372036854775807 + 1) = -9223372036854775808 := by
  decide

theorem commitsOn_le_length (log : List Commit) (k : Key) : commitsOn log k ≤ log.length :=
  List.length_filter_le _ _

/-- What one `IterationStep` leaves under every key. -/
theorem IterationStep_get_exact (r : HeatMapReport) (c : Commit) (k : Key) :
    (r.IterationStep c).CommitsMap.get k =
      if c.key = k then
        some (match r.CommitsMap.get c.key with
          | none => 1
          | some v => wrapInt (v + 1))
      else r.CommitsMap.get k := by
  unfold HeatMapReport.IterationStep
  cases hg : r.CommitsMap.get c.key with
  | none => simp only [GoMap.get_set]
  | some v => simp only [GoMap.get_set]

/-- One `IterationStep` on a map whose count under the key of the commit is an
`int` below the largest one. -/
theorem IterationStep_get (r : HeatMapReport) (c : Commit) (k : Key)
    (hlo : -2 ^ 63 ≤ (r.CommitsMap.get c.key).getD 0)
    (hhi : (r.CommitsMap.get c.key).getD 0 < 2 ^ 63 - 1) :
    (r.IterationStep c).CommitsMap.get k =
      if c.key = k then some ((r.CommitsMap.get k).getD 0 + 1) else r.CommitsMap.get k := by
  rw [IterationStep_get_exact]
  by_cases hk : c.key = k
  · rw [if_pos hk, if_pos hk, ← hk]
    cases hg : r.CommitsMap.get c.key with
    | none => rfl
    | some v =>
      rw [hg] at hlo hhi
      simp only [Option.getD_some] at hlo hhi ⊢
      rw [wrapInt_eq (v + 1) (by omega) (by omega)]
  · rw [if_neg hk, if_neg hk]

/-- The largest count wraps: a step on a map with `9223372036854775807` under
the key of the commit leaves `-9223372036854775808` there. -/
theorem IterationStep_wraps (r : HeatMapReport) (c : Commit)
    (h : r.CommitsMap.get c.key = some 9223372036854775807) :
    (r.IterationStep c).CommitsMap.get c.key = some (-9223372036854775808) := by
  rw [IterationStep_get_exact, if_pos rfl, h]
  simp only
  rw [wrapInt_max]

theorem foldl_IterationStep_get (k : Key) :
    ∀ (log : List Commit) (r : HeatMapReport),
      0 ≤ (r.CommitsMap.get k).getD 0 →
      (r.CommitsMap.get k).getD 0 + (commitsOn log k : Int) < 2 ^ 63 →
      (log.foldl HeatMapReport.IterationStep r).CommitsMap.get k =
        if commitsOn log k = 0 then r.CommitsMap.get k
        else some ((r.CommitsMap.get k).getD 0 + (commitsOn log k : Int)) := by
  intro log
  induction log with
  | nil =>
    intro r _ _
    simp [commitsOn]
  | cons c rest ih =>
    intro r h0 hb
    rw [List.foldl_cons]
    by_cases hk : c.key = k
    · have hc : commitsOn (c :: rest) k = commitsOn rest k + 1 := by
        simp [commitsOn, List.filter_cons, hk]
      rw [hc] at hb ⊢
      push_cast at hb
      have hstep := IterationStep_get r c k (by rw [hk]; omega) (by rw [hk]; omega)
      rw [if_pos hk] at hstep
      rw [ih (r.IterationStep c) (by rw [hstep]; simp only [Option.getD_some]; omega)
        (by rw [hstep]; simp only [Option.getD_some]; omega), hstep]
      by_cases hz : commitsOn rest k = 0
      · simp [hz]
      · simp only [hz, if_false, Option.getD_some, Nat.succ_ne_zero, Option.some.injEq]
        push_cast
        ring
    · have hc : commitsOn (c :: rest) k = commitsOn rest k := by
        simp [commitsOn, List.filter_cons, hk]
      have hstep : (r.IterationStep c).CommitsMap.get k = r.CommitsMap.get k := by
        rw [IterationStep_get_exact, if_neg hk]
      rw [hc] at hb ⊢
      rw [ih (r.IterationStep c) (by rw [hstep]; exact h0) (by rw [hstep]; exact hb), hstep]

/-- The counts after a walk from the empty map, for a list of fewer than `2^63`
commits. -/
theorem foldl_IterationStep_empty (log : List Commit) (hlen : log.length < 2 ^ 63)
    (k : Key) :
    (log.foldl HeatMapReport.IterationStep ⟨[]⟩).CommitsMap.get k =
      if commitsOn log k = 0 then none else some (commitsOn log k : Int) := by
  have hle := commitsOn_le_length log k
  have hb : ((commitsOn log k : Nat) : Int) < 2 ^ 63 := by
    have : commitsOn log k < 2 ^ 63 := lt_of_le_of_lt hle hlen
    exact_mod_cast this
  rw [foldl_IterationStep_get k log ⟨[]⟩ (by simp [GoMap.get]) (by simpa [GoMap.get] using hb)]
  by_cases h0 : commitsOn log k = 0
  · rw [if_pos h0, if_pos h0]; rfl
  · rw [if_neg h0, if_neg h0]
    simp [GoMap.get]

/-- C16: for a list of fewer than `2^63` commits, after `IterationStep` was
applied to every commit of the list, from the empty map on, a key is in the
map exactly when a commit of the list has its date, and its value is the
number of those commits; every step of that walk, and every step on a map
whose count under the key of the commit is an `int` below the largest one,
adds 1 under the key of its commit and leaves every other key as it was; and
commits with different dates have keys with different texts. -/
theorem IterationStep_counts (log : List Commit) (hlen : log.length < 2 ^ 63) :
    (∀ k, ((log.foldl HeatMapReport.IterationStep ⟨[]⟩).CommitsMap.get k).isSome = true ↔
      ∃ c ∈ log, c.key = k) ∧
    (∀ k, (log.foldl HeatMapReport.IterationStep ⟨[]⟩).CommitsMap.get k =
      if commitsOn log k = 0 then none else some (commitsOn log k : Int)) ∧
    (∀ (before after : List Commit) (c : Commit) (k : Key), log = before ++ c :: after →
      ((before.foldl HeatMapReport.IterationStep ⟨[]⟩).IterationStep c).CommitsMap.get k =
        if c.key = k then
          some (((before.foldl HeatMapReport.IterationStep ⟨[]⟩).CommitsMap.get k).getD 0 + 1)
        else (before.foldl HeatMapReport.IterationStep ⟨[]⟩).CommitsMap.get k) ∧
    (∀ (r : HeatMapReport) (c : Commit) (k : Key),
      -2 ^ 63 ≤ (r.CommitsMap.get c.key).getD 0 →
      (r.CommitsMap.get c.key).getD 0 < 2 ^ 63 - 1 →
      (r.IterationStep c).CommitsMap.get k =
        if c.key = k then some ((r.CommitsMap.get k).getD 0 + 1) else r.CommitsMap.get k) ∧
    ∀ c1 c2 : Commit, 0 ≤ c1.When.month → 0 ≤ c1.When.day → 0 ≤ c2.When.month →
      0 ≤ c2.When.day → c1.When ≠ c2.When → c1.key.text ≠ c2.key.text := by
  have hval := foldl_IterationStep_empty log hlen
  refine ⟨?_, hval, ?_, IterationStep_get, ?_⟩
  · intro k
    rw [hval k]
    have hiff : commitsOn log k ≠ 0 ↔ ∃ c ∈ log, c.key = k := by
      unfold commitsOn
      rw [Ne, List.length_eq_zero, List.filter_eq_nil_iff]
      simp
    by_cases h0 : commitsOn log k = 0
    · rw [if_pos h0]
      simp only [Option.isSome_none, Bool.false_eq_true, false_iff]
      exact fun h => (hiff.2 h) h0
    · rw [if_neg h0]
      simp only [Option.isSome_some, true_iff]
      exact hiff.1 h0
  · intro before after c k hlog
    have hblen : before.length + 1 ≤ log.length := by
      rw [hlog, List.length_append, List.length_cons]
      omega
    have hbl : before.length < 2 ^ 63 := by omega
    have hcnt := commitsOn_le_length before c.key
    have hv := foldl_IterationStep_empty before hbl c.key
    have hcast : ((commitsOn before c.key : Nat) : Int) < 2 ^ 63 - 1 := by
      have : commitsOn before c.key + 1 < 2 ^ 63 := by omega
      have h2 : ((commitsOn before c.key + 1 : Nat) : Int) < 2 ^ 63 := by exact_mod_cast this
      push_cast at h2
      omega
    apply IterationStep_get
    · rw [hv]
      by_cases h0 : commitsOn before c.key = 0
      · rw [if_pos h0]; simp
      · rw [if_neg h0]; simp only [Option.getD_some]; omega
    · rw [hv]
      by_cases h0 : commitsOn before c.key = 0
      · rw [if_pos h0]; simp
      · rw [if_neg h0]; simp only [Option.getD_some]; exact hcast
  · intro c1 c2 hm1 hd1 hm2 hd2 hne htext
    have hk := Key.text_injective c1.key c2.key hm1 hd1 hm2 hd2 htext
    apply hne
    have h1 : c1.When.year = c2.When.year := congrArg Key.year hk
    have h2 : c1.When.month = c2.When.month := congrArg Key.month hk
    have h3 : c1.When.day = c2.When.day := congrArg Key.day hk
    cases hw1 : c1.When
    cases hw2 : c2.When
    rw [hw1] at h1 h2 h3
    rw [hw2] at h1 h2 h3
    simp only at h1 h2 h3
    subst h1; subst h2; subst h3
    rfl

theorem IterationStep_counts_witness :
    [(⟨"a@example.org", ⟨2023, 1, 15⟩⟩ : Commit), ⟨"a@example.org", ⟨2023, 1, 16⟩⟩,
        ⟨"b@example.org", ⟨2023, 1, 15⟩⟩].length < 2 ^ 63 ∧
    GoMap.get (List.foldl HeatMapReport.IterationStep ⟨[]⟩
        [⟨"a@example.org", ⟨2023, 1, 15⟩⟩, ⟨"a@example.org", ⟨2023, 1, 16⟩⟩,
          ⟨"b@example.org", ⟨2023, 1, 15⟩⟩]).CommitsMap ⟨2023, 1, 15⟩ = some 2 :=
  ⟨by decide, ((IterationStep_counts _ (by decide)).2.1 ⟨2023, 1, 15⟩).trans (by decide)⟩

/-! ## The extent of the calendar -/

theorem putDay_get_isSome (commits : GoMap Key Int) (years : GoMap Int Tyear) (cur : Time)
    (y : Int) :
    ((putDay commits years cur).get y).isSome = true ↔
      cur.year = y ∨ (years.get y).isSome = true := by
  unfold putDay
  simp only [GoMap.get_set]
  by_cases hy : cur.year = y
  · simp [hy]
  · by_cases hs : (years.get cur.year).isSome
    · simp [hs, hy]
    · simp [hs, hy, GoMap.get_set]

theorem putDay_monthAt_isSome (commits : GoMap Key Int) (years : GoMap Int Tyear)
    (cur : Time) (y m : Int) :
    (monthAt (putDay commits years cur) y m).isSome = true ↔
      (cur.year = y ∧ cur.month = m) ∨ (monthAt years y m).isSome = true := by
  rw [putDay_monthAt]
  by_cases h : cur.year = y ∧ cur.month = m
  · simp [h]
  · simp [h]

theorem putDay_filledTo (commits : GoMap Key Int) (years : GoMap Int Tyear)
    (start cur : Time) (hv : cur.Valid) (hsc : start.ym ≤ cur.ym)
    (h : FilledTo start cur years) :
    FilledTo start cur.nextDay (putDay commits years cur) := by
  obtain ⟨hm, hy⟩ := h
  obtain ⟨v1, v2, v3, v4⟩ := hv
  constructor
  · intro y m
    rw [putDay_monthAt_isSome, hm y m]
    unfold Time.nextDay
    unfold Time.ym at hsc ⊢
    split_ifs with a b
    · simp only
      constructor
      · rintro (⟨h1, h2⟩ | h)
        · subst h1; subst h2
          exact ⟨v1, v2, hsc, Or.inr ⟨rfl, by omega⟩⟩
        · exact ⟨h.1, h.2.1, h.2.2.1, by omega⟩
      · rintro ⟨h1, h2, h3, h4⟩
        by_cases hc : cur.year = y ∧ cur.month = m
        · exact Or.inl hc
        · refine Or.inr ⟨h1, h2, h3, ?_⟩
          by_cases hd : cur.day = 1
          · left; omega
          · omega
    · simp only
      constructor
      · rintro (⟨h1, h2⟩ | h)
        · subst h1; subst h2
          exact ⟨v1, v2, hsc, Or.inl (by omega)⟩
        · exact ⟨h.1, h.2.1, h.2.2.1, by omega⟩
      · rintro ⟨h1, h2, h3, h4⟩
        by_cases hc : cur.year = y ∧ cur.month = m
        · exact Or.inl hc
        · refine Or.inr ⟨h1, h2, h3, ?_⟩
          left; omega
    · simp only
      constructor
      · rintro (⟨h1, h2⟩ | h)
        · subst h1; subst h2
          exact ⟨v1, v2, hsc, Or.inl (by omega)⟩
        · exact ⟨h.1, h.2.1, h.2.2.1, by omega⟩
      · rintro ⟨h1, h2, h3, h4⟩
        by_cases hc : cur.year = y ∧ cur.month = m
        · exact Or.inl hc
        · refine Or.inr ⟨h1, h2, h3, ?_⟩
          left; omega
  · intro y
    rw [putDay_get_isSome, hy y]
    constructor
    · rintro (h | ⟨m, h⟩)
      · exact ⟨cur.month, (putDay_monthAt_isSome _ _ _ _ _).2 (Or.inl ⟨h, rfl⟩)⟩
      · exact ⟨m, (putDay_monthAt_isSome _ _ _ _ _).2 (Or.inr h)⟩
    · rintro ⟨m, h⟩
      rcases (putDay_monthAt_isSome _ _ _ _ _).1 h with h | h
      · exact Or.inl h.1
      · exact Or.inr ⟨m, h⟩

theorem ym_nextDay (cur : Time) (hv : cur.Valid) : cur.ym ≤ cur.nextDay.ym := by
  obtain ⟨v1, v2, v3, v4⟩ := hv
  unfold Time.nextDay Time.ym
  split_ifs <;> simp only <;> omega

/-- The day after a date before `endDate` is not after `endDate`. -/
theorem nextDay_not_after (cur endDate : Time) (hv : cur.Valid) (he : endDate.Valid)
    (hb : cur.Before endDate) : ¬ endDate.Before cur.nextDay := by
  obtain ⟨v1, v2, v3, v4⟩ := hv
  obtain ⟨e1, e2, e3, e4⟩ := he
  unfold Time.Before at hb ⊢
  unfold Time.nextDay
  split_ifs with a b
  · simp only; omega
  · simp only
    intro hc
    have hsame : ¬ (endDate.year = cur.year ∧ endDate.month = cur.month) := by
      rintro ⟨hy, hm⟩
      rw [hy, hm] at e4
      omega
    omega
  · simp only
    intro hc
    have hsame : ¬ (endDate.year = cur.year ∧ endDate.month = cur.month) := by
      rintro ⟨hy, hm⟩
      rw [hy, hm] at e4
      omega
    omega

theorem eq_of_not_before (a b : Time) (h1 : ¬ a.Before b) (h2 : ¬ b.Before a) : a = b := by
  unfold Time.Before at h1 h2
  cases a
  cases b
  simp only at h1 h2
  simp only [Time.mk.injEq]
  omega

theorem fillYears_filledTo (commits : GoMap Key Int) (start endDate : Time)
    (he : endDate.Valid) :
    ∀ (fuel : Nat) (cur : Time) (years res : GoMap Int Tyear),
      cur.Valid → start.ym ≤ cur.ym → ¬ endDate.Before cur → FilledTo start cur years →
      fillYears commits endDate fuel cur years = some res → FilledTo start endDate res := by
  intro fuel
  induction fuel with
  | zero =>
    intro cur years res hv hsc hle hF h
    unfold fillYears at h
    by_cases hb : cur.Before endDate
    · rw [if_pos hb] at h; cases h
    · rw [if_neg hb] at h
      cases h
      rw [← eq_of_not_before cur endDate hb hle]
      exact hF
  | succ n ih =>
    intro cur years res hv hsc hle hF h
    unfold fillYears at h
    by_cases hb : cur.Before endDate
    · rw [if_pos hb] at h
      exact ih cur.nextDay _ res (nextDay_valid cur hv)
        (le_trans hsc (ym_nextDay cur hv)) (nextDay_not_after cur endDate hv he hb)
        (putDay_filledTo commits years start cur hv hsc hF) h
    · rw [if_neg hb] at h
      cases h
      rw [← eq_of_not_before cur endDate hb hle]
      exact hF

/-! ## The earliest and the latest key -/

instance : IsTotal Key (fun a b => ¬ (parseKey b).Before (parseKey a)) where
  total a b := by
    unfold Time.Before
    omega

instance : IsTrans Key (fun a b => ¬ (parseKey b).Before (parseKey a)) where
  trans a b c := by
    unfold Time.Before
    omega

theorem pairwise_head {α : Type} (R : α → α → Prop) (hrefl : ∀ x, R x x) :
    ∀ (l : List α) (a : α), l.Pairwise R → l.head? = some a → ∀ k ∈ l, R a k := by
  intro l a hp hh k hk
  cases l with
  | nil => cases hk
  | cons x t =>
    simp only [List.head?_cons, Option.some.injEq] at hh
    subst hh
    rw [List.mem_cons] at hk
    rcases hk with hk | hk
    · rw [hk]; exact hrefl _
    · exact (List.pairwise_cons.1 hp).1 k hk

/-- The first key after the sort is an earliest key of the map and the last one
is a latest key. -/
theorem sortKeys_ends (keys : List Key) (first last : Key)
    (hf : (sortKeys keys).head? = some first) (hl : (sortKeys keys).getLast? = some last) :
    first ∈ keys ∧ last ∈ keys ∧
      ∀ k ∈ keys, ¬ (parseKey k).Before (parseKey first) ∧
        ¬ (parseKey last).Before (parseKey k) := by
  have hperm := List.perm_insertionSort (fun a b => ¬ (parseKey b).Before (parseKey a)) keys
  have hsorted := List.sorted_insertionSort (fun a b => ¬ (parseKey b).Before (parseKey a)) keys
  have hirr : ∀ t : Time, ¬ t.Before t := by
    intro t
    unfold Time.Before
    omega
  have hmemf : first ∈ sortKeys keys := List.mem_of_mem_head? hf
  have hmeml : last ∈ sortKeys keys := List.mem_of_mem_getLast? hl
  refine ⟨hperm.mem_iff.1 hmemf, hperm.mem_iff.1 hmeml, ?_⟩
  intro k hk
  have hk2 : k ∈ sortKeys keys := hperm.mem_iff.2 hk
  constructor
  · exact pairwise_head (fun a b : Key => ¬ (parseKey b).Before (parseKey a))
      (fun x => hirr _) (sortKeys keys) first hsorted hf k hk2
  · have hrev : (sortKeys keys).reverse.Pairwise
        (fun a b => ¬ (parseKey a).Before (parseKey b)) :=
      List.pairwise_reverse.2 hsorted
    have hh : (sortKeys keys).reverse.head? = some last := by
      rw [List.head?_reverse]; exact hl
    exact pairwise_head (fun a b : Key => ¬ (parseKey a).Before (parseKey b))
      (fun x => hirr _) _ last hrev hh k (List.mem_reverse.2 hk2)

/-! ## Years and months of the calendar -/

theorem monthStart_monthEnd_order (a b : Time) (ha : a.Valid) (hb : b.Valid)
    (h : ¬ b.Before a) :
    a.monthStart.ym ≤ b.monthEnd.ym ∧ ¬ b.monthEnd.Before a.monthStart := by
  obtain ⟨a1, a2, a3, a4⟩ := ha
  obtain ⟨b1, b2, b3, b4⟩ := hb
  have hd := daysIn_bounds b.month b.year
  unfold Time.Before at h ⊢
  unfold Time.ym Time.monthStart Time.monthEnd
  simp only
  constructor
  · omega
  · omega

/-- What a finished calendar loop leaves: the months between the month of the
start and the month of the end, and the years that have one of them. -/
theorem filledTo_within (startDate endDate : Time) (years : GoMap Int Tyear)
    (hs : startDate.Valid) (hs1 : startDate.day = 1) (he : endDate.Valid)
    (he1 : endDate.day = daysIn endDate.month endDate.year)
    (hF : FilledTo startDate endDate years) :
    (∀ y, (years.get y).isSome = true ↔ ∃ d : Time, d.Within startDate endDate ∧ d.year = y) ∧
    ∀ y m, (monthAt years y m).isSome = true ↔
      ∃ d : Time, d.Within startDate endDate ∧ d.year = y ∧ d.month = m := by
  obtain ⟨hm, hy⟩ := hF
  obtain ⟨s1, s2, s3, s4⟩ := hs
  obtain ⟨e1, e2, e3, e4⟩ := he
  have hdb := daysIn_bounds endDate.month endDate.year
  have hmonth : ∀ y m, (monthAt years y m).isSome = true ↔
      ∃ d : Time, d.Within startDate endDate ∧ d.year = y ∧ d.month = m := by
    intro y m
    rw [hm y m]
    constructor
    · rintro ⟨h1, h2, h3, h4⟩
      have hd := daysIn_bounds m y
      refine ⟨⟨y, m, 1⟩, ⟨⟨h1, h2, le_refl _, by show (1 : Int) ≤ daysIn m y; omega⟩, ?_, ?_⟩,
        rfl, rfl⟩
      · unfold Time.Before
        unfold Time.ym at h3
        simp only
        omega
      · unfold Time.Before
        unfold Time.ym at h4
        simp only
        omega
    · rintro ⟨d, ⟨⟨d1, d2, d3, d4⟩, hb1, hb2⟩, rfl, rfl⟩
      unfold Time.Before at hb1 hb2
      unfold Time.ym
      refine ⟨d1, d2, by omega, ?_⟩
      by_cases hlt : d.year * 12 + (d.month - 1) < endDate.year * 12 + (endDate.month - 1)
      · exact Or.inl hlt
      · exact Or.inr ⟨by omega, by omega⟩
  refine ⟨?_, hmonth⟩
  intro y
  rw [hy y]
  constructor
  · rintro ⟨m, h⟩
    obtain ⟨d, hw, h1, _⟩ := (hmonth y m).1 h
    exact ⟨d, hw, h1⟩
  · rintro ⟨d, hw, h1⟩
    exact ⟨d.month, (hmonth y d.month).2 ⟨d, hw, h1, rfl⟩⟩

/-- C13: for a non-empty observation map, with `first` an earliest and `last` a
latest key, the calendar is built, a `Tyear` with key `y` is in it exactly when
a date from the first day of the month of `first` to the last day of the month
of `last` lies in the year `y`, and a `Tmonth` with key `m` is in that year
exactly when such a date lies in month `m` of year `y`. -/
theorem calendar_years_and_months (r : HeatMapReport) (hne : r.CommitsMap ≠ []) :
    ∃ (first last : Key) (fuel : Nat) (years : GoMap Int Tyear),
      first ∈ r.CommitsMap.keys ∧ last ∈ r.CommitsMap.keys ∧
      (∀ k ∈ r.CommitsMap.keys, ¬ (parseKey k).Before (parseKey first) ∧
        ¬ (parseKey last).Before (parseKey k)) ∧
      r.calendar fuel = some years ∧
      (∀ y, (years.get y).isSome = true ↔
        ∃ d : Time, d.Within (parseKey first).monthStart (parseKey last).monthEnd ∧
          d.year = y) ∧
      ∀ y m, (monthAt years y m).isSome = true ↔
        ∃ d : Time, d.Within (parseKey first).monthStart (parseKey last).monthEnd ∧
          d.year = y ∧ d.month = m := by
  obtain ⟨fuel, years, hcal⟩ := calendar_returns r hne
  have hcal2 := hcal
  unfold HeatMapReport.calendar at hcal2
  cases hh : (sortKeys r.CommitsMap.keys).head? with
  | none => simp [hh] at hcal2
  | some first =>
    cases hl : (sortKeys r.CommitsMap.keys).getLast? with
    | none => simp [hh, hl] at hcal2
    | some last =>
      simp only [hh, hl] at hcal2
      obtain ⟨hf, hlm, hall⟩ := sortKeys_ends r.CommitsMap.keys first last hh hl
      have hvf := parseKey_valid first
      have hvl := parseKey_valid last
      have hord := monthStart_monthEnd_order (parseKey first) (parseKey last) hvf hvl
        (hall first hf).2
      have hF := fillYears_filledTo r.CommitsMap (parseKey first).monthStart
        (parseKey last).monthEnd (monthEnd_valid _ hvl) fuel (parseKey first).monthStart []
        years (monthStart_valid _ hvf) (le_refl _) hord.2
        (by
          constructor
          · intro y m
            simp only [monthAt, GoMap.get, Option.none_bind, Option.isSome_none,
              Bool.false_eq_true, false_iff]
            rintro ⟨_, _, h3, h4⟩
            rcases h4 with h4 | ⟨_, h5⟩
            · omega
            · exact h5 rfl
          · intro y
            simp [monthAt, GoMap.get])
        hcal2
      obtain ⟨hyears, hmonths⟩ := filledTo_within _ _ years (monthStart_valid _ hvf) rfl
        (monthEnd_valid _ hvl) rfl hF
      exact ⟨first, last, fuel, years, hf, hlm, hall, hcal, hyears, hmonths⟩

set_option maxRecDepth 100000 in
theorem calendar_years_and_months_witness :
    (∃ (first last : Key) (fuel : Nat) (years : GoMap Int Tyear),
      first ∈ GoMap.keys [((⟨2022, 12, 20⟩ : Key), (1 : Int)), (⟨2023, 1, 5⟩, 1)] ∧
      last ∈ GoMap.keys [((⟨2022, 12, 20⟩ : Key), (1 : Int)), (⟨2023, 1, 5⟩, 1)] ∧
      (∀ k ∈ GoMap.keys [((⟨2022, 12, 20⟩ : Key), (1 : Int)), (⟨2023, 1, 5⟩, 1)],
        ¬ (parseKey k).Before (parseKey first) ∧ ¬ (parseKey last).Before (parseKey k)) ∧
      HeatMapReport.calendar fuel ⟨[(⟨2022, 12, 20⟩, 1), (⟨2023, 1, 5⟩, 1)]⟩ = some years ∧
      (∀ y, (years.get y).isSome = true ↔
        ∃ d : Time, d.Within (parseKey first).monthStart (parseKey last).monthEnd ∧
          d.year = y) ∧
      ∀ y m, (monthAt years y m).isSome = true ↔
        ∃ d : Time, d.Within (parseKey first).monthStart (parseKey last).monthEnd ∧
          d.year = y ∧ d.month = m) ∧
    (HeatMapReport.calendar 61 ⟨[(⟨2022, 12, 20⟩, 1), (⟨2023, 1, 5⟩, 1)]⟩).map
        (fun years => years.map (fun p => (p.1, p.2.Tmonths.keys))) =
      some [(2022, [12]), (2023, [1])] :=
  ⟨calendar_years_and_months ⟨[(⟨2022, 12, 20⟩, 1), (⟨2023, 1, 5⟩, 1)]⟩ (by decide),
    by decide⟩

end Report
